import Mathlib

/-!
Shallow embedding of the Minesweeper grid engine (`src/components.py`).

The Python module is imperative; here every operation is a pure function
from `Board` to `Board`.  The two uses of randomness are modelled by
explicit parameters:

* `random.sample(pool, actual_mines)` becomes a `sample` argument to
  `place_mines` / `reveal`; theorems that depend on the sample being an
  actual output of `random.sample` carry a `ValidSample` hypothesis
  (no duplicates, drawn from the pool, of length `min(num_mines, |pool|)`).
* `random.choice(safe_unrevealed)` in `get_hint` becomes an index
  argument `k`, the chosen element being `safe_unrevealed[k % length]`.

Python `int` is embedded as `Int`.  The flat cell list, index arithmetic
(`row * cols + col`), bounds checks and iteration orders follow the source
line by line.  The flood-fill `while stack` loop is embedded with an
explicit fuel argument; `cells.length + 1` units of fuel are always enough
(proved below), so the embedded function agrees with the source loop.
-/

set_option maxRecDepth 100000

namespace Minesweeper

/-- Mutable state of a single cell (`CellState` in `components.py`). -/
structure CellState where
  is_mine : Bool
  is_revealed : Bool
  is_flagged : Bool
  adjacent : Int
deriving DecidableEq, Repr

/-- The `CellState()` default constructor values. -/
def CellState.initial : CellState :=
  { is_mine := false, is_revealed := false, is_flagged := false, adjacent := 0 }

/-- Logical cell positioned on the board by column and row. -/
structure Cell where
  col : Int
  row : Int
  state : CellState
deriving DecidableEq, Repr

/-- Minesweeper board state (`Board` in `components.py`). -/
structure Board where
  cols : Int
  rows : Int
  num_mines : Int
  cells : List Cell
  mines_placed : Bool
  revealed_count : Int
  game_over : Bool
  win : Bool
deriving DecidableEq, Repr

/-- `Board.__init__`: cells are listed row-major, `for r in range(rows) for c in range(cols)`. -/
def Board.init (cols rows mines : Int) : Board :=
  { cols := cols, rows := rows, num_mines := mines,
    cells := (List.range rows.toNat).flatMap (fun (r : Nat) =>
      (List.range cols.toNat).map (fun (c : Nat) =>
        { col := (c : Int), row := (r : Int), state := CellState.initial })),
    mines_placed := false, revealed_count := 0, game_over := false, win := false }

/-- `Board.index`: flat list index for `(col,row)`. -/
def Board.index (b : Board) (col row : Int) : Int := row * b.cols + col

/-- The flat index as a `Nat`; used for list access, which in the source only
happens at in-bounds coordinates (where the index is nonnegative). -/
def Board.idx (b : Board) (col row : Int) : Nat := (b.index col row).toNat

/-- `Board.is_inbounds`. -/
def Board.is_inbounds (b : Board) (col row : Int) : Bool :=
  decide (0 ≤ col) && decide (col < b.cols) && decide (0 ≤ row) && decide (row < b.rows)

/-- The eight neighbor offsets, in source order. -/
def deltas : List (Int × Int) :=
  [(-1, -1), (0, -1), (1, -1), (-1, 0), (1, 0), (-1, 1), (0, 1), (1, 1)]

/-- `Board.neighbors`: in-bounds 8-neighbors of `(col,row)`, in source order. -/
def Board.neighbors (b : Board) (col row : Int) : List (Int × Int) :=
  (deltas.map (fun d => (col + d.1, row + d.2))).filter (fun p => b.is_inbounds p.1 p.2)

/-- Cell at `(col,row)` (list access `self.cells[self.index(col,row)]`). -/
def Board.cellAt (b : Board) (col row : Int) : Option Cell := b.cells[b.idx col row]?

/-- State record of the cell at `(col,row)`. -/
def Board.stateAt (b : Board) (col row : Int) : Option CellState := (b.cellAt col row).map Cell.state

/-- Is the cell at position `p` revealed (`false` when out of range). -/
def Board.revQ (b : Board) (p : Int × Int) : Bool :=
  ((b.stateAt p.1 p.2).map CellState.is_revealed).getD false

/-- Is the cell at position `p` flagged (`false` when out of range). -/
def Board.flagQ (b : Board) (p : Int × Int) : Bool :=
  ((b.stateAt p.1 p.2).map CellState.is_flagged).getD false

/-- Is the cell at position `p` a mine (`false` when out of range). -/
def Board.mineQ (b : Board) (p : Int × Int) : Bool :=
  ((b.stateAt p.1 p.2).map CellState.is_mine).getD false

/-- Adjacency value of the cell at position `p` (`0` when out of range). -/
def Board.adjQ (b : Board) (p : Int × Int) : Int :=
  ((b.stateAt p.1 p.2).map CellState.adjacent).getD 0

/-- Update the state of the cell at flat index `i` (in-place field mutation in the source). -/
def updateCell (cells : List Cell) (i : Nat) (f : CellState → CellState) : List Cell :=
  match cells[i]? with
  | some c => cells.set i { c with state := f c.state }
  | none => cells

/-- All grid coordinates, row-major (`[(c,r) for r in range(rows) for c in range(cols)]`). -/
def Board.all_positions (b : Board) : List (Int × Int) :=
  (List.range b.rows.toNat).flatMap (fun (r : Nat) =>
    (List.range b.cols.toNat).map (fun (c : Nat) => ((c : Int), (r : Int))))

/-- The forbidden set of `place_mines`: clicked cell plus its in-bounds neighbors. -/
def Board.forbidden (b : Board) (safe_col safe_row : Int) : List (Int × Int) :=
  (safe_col, safe_row) :: b.neighbors safe_col safe_row

/-- The candidate pool of `place_mines`: all positions minus the forbidden set. -/
def Board.pool (b : Board) (safe_col safe_row : Int) : List (Int × Int) :=
  b.all_positions.filter (fun p => decide (p ∉ b.forbidden safe_col safe_row))

/-- `Board.place_mines`, with the `random.sample` result passed in as `sample`.
First pass marks sampled cells as mines; second pass recomputes `adjacent`
for every non-mine cell, reading `is_mine` from the evolving cell list
exactly as the source reads the mutated `self.cells`. -/
def Board.place_mines (b : Board) (sample : List (Int × Int)) (safe_col safe_row : Int) : Board :=
  let cells1 := sample.foldl (fun cs p =>
    updateCell cs (b.idx p.1 p.2) (fun s => { s with is_mine := true })) b.cells
  let cells2 := b.all_positions.foldl (fun cs p =>
    match cs[b.idx p.1 p.2]? with
    | some cell =>
        if cell.state.is_mine then cs
        else cs.set (b.idx p.1 p.2)
          { cell with state := { cell.state with
              adjacent := (((b.neighbors p.1 p.2).filter (fun q =>
                ((cs[b.idx q.1 q.2]?).map (fun c => c.state.is_mine)).getD false)).length : Int) } }
    | none => cs) cells1
  { b with cells := cells2, mines_placed := true }

/-- Mark the cell at `(col,row)` revealed and increment `revealed_count`
(lines `cell.state.is_revealed = True; self.revealed_count += 1`). -/
def Board.revealCellAt (b : Board) (col row : Int) : Board :=
  { b with cells := updateCell b.cells (b.idx col row) (fun s => { s with is_revealed := true }),
           revealed_count := b.revealed_count + 1 }

/-- One neighbor visit of the flood-fill inner `for` loop: reveal an
unrevealed, unflagged neighbor and push it when its `adjacent` is 0.
The stack is kept head-first (head = Python's end-of-list top). -/
def floodVisit (acc : Board × List (Int × Int)) (q : Int × Int) : Board × List (Int × Int) :=
  match (acc.1).stateAt q.1 q.2 with
  | some s =>
      if !s.is_revealed && !s.is_flagged then
        let b2 := (acc.1).revealCellAt q.1 q.2
        if s.adjacent = 0 then (b2, q :: acc.2) else (b2, acc.2)
      else acc
  | none => acc

/-- The flood-fill `while stack` loop, with explicit fuel.  Each iteration
pops the top of the stack and visits its neighbors in source order. -/
def floodLoop : Nat → Board → List (Int × Int) → Board
  | 0, b, _ => b
  | _ + 1, b, [] => b
  | fuel + 1, b, p :: rest =>
      let acc := (b.neighbors p.1 p.2).foldl floodVisit (b, rest)
      floodLoop fuel acc.1 acc.2

/-- `Board._reveal_all_mines`. -/
def Board.reveal_all_mines (b : Board) : Board :=
  { b with cells := b.cells.map (fun c =>
      if c.state.is_mine then { c with state := { c.state with is_revealed := true } } else c) }

/-- `Board._check_win`: compares against `cols * rows - num_mines`, the
originally requested mine count. -/
def Board.check_win (b : Board) : Board :=
  if b.revealed_count = b.cols * b.rows - b.num_mines ∧ b.game_over = false
  then { b with win := true } else b

/-- `Board.reveal`, with the placement sample passed through.  Mirrors the
source: guards, lazy placement, reveal + count, mine/loss branch, zero-
adjacency flood fill, win check.  The cell is re-read after placement
because the source's `cell` alias sees the mutations made by
`place_mines`. -/
def Board.reveal (b : Board) (sample : List (Int × Int)) (col row : Int) : Board :=
  if !b.is_inbounds col row || b.game_over || b.win then b
  else
    match b.stateAt col row with
    | none => b
    | some s =>
      if s.is_revealed || s.is_flagged then b
      else
        let b1 := if b.mines_placed then b else b.place_mines sample col row
        let b2 := b1.revealCellAt col row
        match b2.stateAt col row with
        | none => b2
        | some s2 =>
          if s2.is_mine then ({ b2 with game_over := true }).reveal_all_mines
          else
            let b3 := if s2.adjacent = 0 then floodLoop (b2.cells.length + 1) b2 [(col, row)] else b2
            b3.check_win

/-- `Board.toggle_flag`. -/
def Board.toggle_flag (b : Board) (col row : Int) : Board :=
  if !b.is_inbounds col row || b.game_over || b.win then b
  else
    match b.stateAt col row with
    | none => b
    | some s =>
      if s.is_revealed then b
      else
        let cs := updateCell b.cells (b.idx col row) (fun st => { st with is_flagged := !st.is_flagged })
        { b with cells := cs }

/-- `Board.flagged_count`. -/
def Board.flagged_count (b : Board) : Nat :=
  b.cells.countP (fun c => c.state.is_flagged)

/-- The `safe_unrevealed` comprehension of `get_hint`. -/
def Board.safe_unrevealed (b : Board) : List (Int × Int) :=
  (b.cells.filter (fun c => !c.state.is_mine && !c.state.is_revealed)).map (fun c => (c.col, c.row))

/-- `Board.get_hint`, with the `random.choice` draw modelled by index `k`.
Returns the hint together with the (unchanged) board, reflecting that the
method mutates nothing. -/
def Board.get_hint (b : Board) (k : Nat) : Option (Int × Int) × Board :=
  let su := b.safe_unrevealed
  (if su.isEmpty then none else su[k % su.length]?, b)

/-- Well-formedness: the cell list has `cols*rows` entries and the cell
stored at flat index `i` carries coordinates `(i % cols, i / cols)` —
exactly what `Board.__init__` builds and every operation preserves. -/
def Board.WF (b : Board) : Prop :=
  b.cells.length = b.cols.toNat * b.rows.toNat ∧
  ∀ i : Nat, i < b.cells.length →
    (b.cells[i]?.map (fun cell => (cell.col, cell.row))) =
      some (((i % b.cols.toNat : Nat) : Int), ((i / b.cols.toNat : Nat) : Int))

instance (b : Board) : Decidable b.WF := by
  unfold Board.WF
  exact instDecidableAnd

/-- Does a `reveal` at `(col,row)` trigger mine placement (and hence consume
the random sample)? -/
def Board.usesSample (b : Board) (col row : Int) : Bool :=
  b.is_inbounds col row && !b.game_over && !b.win &&
  (((b.stateAt col row).map (fun s => !s.is_revealed && !s.is_flagged)).getD false) &&
  !b.mines_placed

/-- The sample is a possible output of `random.sample(pool, actual_mines)`:
distinct elements of the pool, `min(num_mines, |pool|)` of them. -/
def Board.ValidSample (b : Board) (sample : List (Int × Int)) (col row : Int) : Prop :=
  sample.Nodup ∧ (∀ p ∈ sample, p ∈ b.pool col row) ∧
  (sample.length : Int) = min b.num_mines ((b.pool col row).length : Int)

instance (b : Board) (sample : List (Int × Int)) (col row : Int) :
    Decidable (b.ValidSample sample col row) := by
  unfold Board.ValidSample
  exact instDecidableAnd

/-- States reachable from `a` by `reveal` / `toggle_flag` commands, where any
sample actually consumed by placement must be a valid `random.sample` draw. -/
inductive Reachable : Board → Board → Prop
  | refl (b : Board) : Reachable b b
  | reveal {a b : Board} (sample : List (Int × Int)) (col row : Int)
      (h : Reachable a b)
      (hs : b.usesSample col row = true → b.ValidSample sample col row) :
      Reachable a (b.reveal sample col row)
  | toggle {a b : Board} (col row : Int) (h : Reachable a b) :
      Reachable a (b.toggle_flag col row)

end Minesweeper

namespace Minesweeper

/-! ## Basic facts about indices, bounds and positions -/

theorem Board.is_inbounds_iff (b : Board) (col row : Int) :
    b.is_inbounds col row = true ↔ 0 ≤ col ∧ col < b.cols ∧ 0 ≤ row ∧ row < b.rows := by
  simp [Board.is_inbounds, Bool.and_eq_true, and_assoc]

theorem Board.idx_eq (b : Board) {col row : Int} (h : b.is_inbounds col row = true) :
    b.idx col row = b.cols.toNat * row.toNat + col.toNat := by
  rw [Board.is_inbounds_iff] at h
  obtain ⟨h1, h2, h3, h4⟩ := h
  have hc : (0 : Int) < b.cols := lt_of_le_of_lt h1 h2
  have e1 : row * b.cols + col = ((b.cols.toNat * row.toNat + col.toNat : Nat) : Int) := by
    push_cast
    rw [Int.toNat_of_nonneg h1, Int.toNat_of_nonneg h3, Int.toNat_of_nonneg (le_of_lt hc)]
    ring
  rw [Board.idx, Board.index, e1, Int.toNat_natCast]

theorem Board.idx_lt (b : Board) (hWF : b.WF) {col row : Int}
    (h : b.is_inbounds col row = true) : b.idx col row < b.cells.length := by
  have hb := (Board.is_inbounds_iff b col row).mp h
  rw [b.idx_eq h, hWF.1]
  have hcn : col.toNat < b.cols.toNat := by omega
  have hrn : row.toNat < b.rows.toNat := by omega
  calc b.cols.toNat * row.toNat + col.toNat
      < b.cols.toNat * row.toNat + b.cols.toNat := by omega
    _ = b.cols.toNat * (row.toNat + 1) := by ring
    _ ≤ b.cols.toNat * b.rows.toNat := Nat.mul_le_mul_left _ (by omega)

theorem Board.idx_inj (b : Board) {p q : Int × Int}
    (hp : b.is_inbounds p.1 p.2 = true) (hq : b.is_inbounds q.1 q.2 = true)
    (h : b.idx p.1 p.2 = b.idx q.1 q.2) : p = q := by
  have hbp := (Board.is_inbounds_iff b p.1 p.2).mp hp
  have hbq := (Board.is_inbounds_iff b q.1 q.2).mp hq
  rw [b.idx_eq hp, b.idx_eq hq] at h
  have hc : (0 : Int) < b.cols := lt_of_le_of_lt hbp.1 hbp.2.1
  have hcn : 0 < b.cols.toNat := by omega
  have hp1 : p.1.toNat < b.cols.toNat := by omega
  have hq1 : q.1.toNat < b.cols.toNat := by omega
  have hmod : p.1.toNat = q.1.toNat := by
    have := congrArg (fun n => n % b.cols.toNat) h
    simpa [Nat.mul_add_mod, Nat.mod_eq_of_lt hp1, Nat.mod_eq_of_lt hq1] using this
  have hdiv : p.2.toNat = q.2.toNat := by
    have := congrArg (fun n => n / b.cols.toNat) h
    simpa [Nat.mul_add_div hcn, Nat.div_eq_of_lt hp1, Nat.div_eq_of_lt hq1] using this
  have e1 : p.1 = q.1 := by omega
  have e2 : p.2 = q.2 := by omega
  exact Prod.ext e1 e2

theorem Board.mem_all_positions (b : Board) (p : Int × Int) :
    p ∈ b.all_positions ↔ b.is_inbounds p.1 p.2 = true := by
  rw [Board.is_inbounds_iff]
  constructor
  · intro hmem
    rw [Board.all_positions, List.mem_flatMap] at hmem
    obtain ⟨r, hr, hmem2⟩ := hmem
    rw [List.mem_map] at hmem2
    obtain ⟨c, hc, hpc⟩ := hmem2
    rw [List.mem_range] at hr hc
    subst hpc
    refine ⟨?_, ?_, ?_, ?_⟩ <;> dsimp only <;> omega
  · intro ⟨h1, h2, h3, h4⟩
    rw [Board.all_positions]
    apply List.mem_flatMap.mpr
    refine ⟨p.2.toNat, List.mem_range.mpr (by omega), ?_⟩
    apply List.mem_map.mpr
    refine ⟨p.1.toNat, List.mem_range.mpr (by omega), ?_⟩
    rw [Int.toNat_of_nonneg h1, Int.toNat_of_nonneg h3]

theorem Board.all_positions_nodup (b : Board) : b.all_positions.Nodup := by
  rw [Board.all_positions]
  apply List.nodup_flatMap.mpr
  constructor
  · intro r _
    apply List.Nodup.map
    · intro a c h
      have := congrArg Prod.fst h
      simpa using this
    · exact List.nodup_range _
  · refine List.Pairwise.imp ?_ (List.nodup_range _)
    intro r1 r2 hne p hp1 hp2
    simp only [Function.onFun, List.mem_map, List.mem_range] at hp1 hp2
    obtain ⟨c1, _, e1⟩ := hp1
    obtain ⟨c2, _, e2⟩ := hp2
    apply hne
    have h2 : ((r1 : Int)) = (r2 : Int) := congrArg Prod.snd (e1.trans e2.symm)
    exact_mod_cast h2

theorem Board.mem_neighbors (b : Board) {col row : Int} {q : Int × Int}
    (h : q ∈ b.neighbors col row) : b.is_inbounds q.1 q.2 = true := by
  rw [Board.neighbors] at h
  exact (List.mem_filter.mp h).2

theorem Board.neighbors_length_le (b : Board) (col row : Int) :
    (b.neighbors col row).length ≤ 8 := by
  rw [Board.neighbors]
  calc ((deltas.map fun d => (col + d.1, row + d.2)).filter fun p => b.is_inbounds p.1 p.2).length
      ≤ (deltas.map fun d => (col + d.1, row + d.2)).length := List.length_filter_le _ _
    _ = 8 := by simp [deltas]

theorem Board.pool_disjoint_forbidden (b : Board) (sc sr : Int) {p : Int × Int}
    (h : p ∈ b.pool sc sr) : p ∉ b.forbidden sc sr := by
  rw [Board.pool] at h
  simpa using (List.mem_filter.mp h).2

theorem Board.pool_inbounds (b : Board) (sc sr : Int) {p : Int × Int}
    (h : p ∈ b.pool sc sr) : b.is_inbounds p.1 p.2 = true := by
  rw [Board.pool] at h
  exact (b.mem_all_positions p).mp (List.mem_filter.mp h).1

/-! ## List update lemmas -/

theorem length_updateCell (cells : List Cell) (i : Nat) (f : CellState → CellState) :
    (updateCell cells i f).length = cells.length := by
  rw [updateCell]
  cases h : cells[i]? <;> simp

theorem getElem?_updateCell_self {cells : List Cell} {i : Nat} {c : Cell}
    (h : cells[i]? = some c) (f : CellState → CellState) :
    (updateCell cells i f)[i]? = some { c with state := f c.state } := by
  rw [updateCell, h]
  have hlt : i < cells.length := by
    rcases List.getElem?_eq_some_iff.mp h with ⟨hl, _⟩
    exact hl
  simp [List.getElem?_set_self hlt]

theorem getElem?_updateCell_ne {cells : List Cell} {i j : Nat} (hne : j ≠ i)
    (f : CellState → CellState) : (updateCell cells i f)[j]? = cells[j]? := by
  rw [updateCell]
  cases h : cells[i]? with
  | none => rfl
  | some c => exact List.getElem?_set_ne (fun he => hne he.symm)

theorem updateCell_none {cells : List Cell} {i : Nat} (h : cells[i]? = none)
    (f : CellState → CellState) : updateCell cells i f = cells := by
  rw [updateCell, h]

theorem countP_updateCell {cells : List Cell} {i : Nat} {c : Cell}
    (h : cells[i]? = some c) (f : CellState → CellState) (p : Cell → Bool) :
    (updateCell cells i f).countP p =
      cells.countP p - (if p c then 1 else 0) + (if p { c with state := f c.state } then 1 else 0) := by
  rw [updateCell, h]
  rcases List.getElem?_eq_some_iff.mp h with ⟨hl, hv⟩
  rw [List.countP_set p cells i _ hl, hv]

theorem set_getElem?_self {l : List Cell} {i : Nat} {a : Cell} (h : l[i]? = some a) :
    l.set i a = l := by
  induction l generalizing i with
  | nil => simp at h
  | cons x xs ih =>
    cases i with
    | zero => simp at h; simp [h]
    | succ n =>
      simp only [List.getElem?_cons_succ] at h
      simp [List.set_cons_succ, ih h]

theorem countP_congr_pointwise (p : Cell → Bool) (cs cs' : List Cell)
    (hl : cs.length = cs'.length)
    (h : ∀ i : Nat, (cs[i]?.map p) = (cs'[i]?.map p)) :
    cs.countP p = cs'.countP p := by
  induction cs generalizing cs' with
  | nil =>
    cases cs' with
    | nil => rfl
    | cons y ys => simp at hl
  | cons x xs ih =>
    cases cs' with
    | nil => simp at hl
    | cons y ys =>
      have h0 : p x = p y := by simpa using h 0
      have hrest : ∀ i : Nat, (xs[i]?.map p) = (ys[i]?.map p) := fun i => by
        have := h (i + 1)
        simpa using this
      have := ih ys (by simpa using hl) hrest
      simp [List.countP_cons, this, h0]

end Minesweeper

namespace Minesweeper

/-! ## Well-formedness of freshly constructed boards -/

theorem length_gridList {α : Type} (m n : Nat) (g : Nat → Nat → α) :
    ((List.range m).flatMap (fun r => (List.range n).map (g r))).length = n * m := by
  induction m with
  | zero => simp
  | succ k ih =>
    rw [List.range_succ]
    simp only [List.flatMap_append, List.length_append, ih, List.flatMap_cons,
      List.flatMap_nil, List.append_nil, List.length_map, List.length_range]
    ring

theorem getElem?_gridList {α : Type} (m n : Nat) (g : Nat → Nat → α) (i : Nat)
    (h : i < n * m) :
    ((List.range m).flatMap (fun r => (List.range n).map (g r)))[i]? = some (g (i / n) (i % n)) := by
  induction m with
  | zero => omega
  | succ k ih =>
    rw [List.range_succ]
    simp only [List.flatMap_append, List.flatMap_cons, List.flatMap_nil, List.append_nil]
    have hnk : n * (k + 1) = n * k + n := by ring
    by_cases hik : i < n * k
    · rw [List.getElem?_append_left (by rw [length_gridList]; exact hik)]
      exact ih hik
    · have hn : 0 < n := by omega
      rw [List.getElem?_append_right (by rw [length_gridList]; omega)]
      rw [length_gridList]
      have hj : i - n * k < n := by omega
      rw [List.getElem?_map, List.getElem?_range hj]
      have hdiv : i / n = k := by
        apply Nat.div_eq_of_lt_le (by rw [Nat.mul_comm]; omega)
        rw [Nat.succ_mul, Nat.mul_comm]
        omega
      have hmod : i % n = i - n * k := by
        have hdm := Nat.div_add_mod i n
        rw [hdiv] at hdm
        omega
      rw [hdiv, hmod]
      rfl

theorem Board.init_WF (cols rows mines : Int) : (Board.init cols rows mines).WF := by
  constructor
  · show ((List.range rows.toNat).flatMap _).length = _
    rw [length_gridList]
    rfl
  · intro i hi
    rw [Board.init] at hi ⊢
    simp only [length_gridList] at hi
    rw [getElem?_gridList _ _ _ _ hi]
    rfl

theorem Board.WF_of_pointwise (b b' : Board) (hc : b'.cols = b.cols) (hr : b'.rows = b.rows)
    (hl : b'.cells.length = b.cells.length)
    (hpt : ∀ i : Nat, (b'.cells[i]?.map fun cell => (cell.col, cell.row)) =
      (b.cells[i]?.map fun cell => (cell.col, cell.row)))
    (hWF : b.WF) : b'.WF := by
  refine ⟨by rw [hl, hc, hr]; exact hWF.1, ?_⟩
  intro i hi
  have h2 := hWF.2 i (by omega)
  have h3 := hpt i
  rw [h3, hc]
  exact h2

/-! ## The RevealOnly relation: a board evolves by only turning
`is_revealed` from false to true (plus counter / outcome fields) -/

/-- Cellwise comparison: everything equal except `is_revealed` may go
from `false` to `true`. -/
def cellsMatchRev : Option Cell → Option Cell → Prop
  | none, none => True
  | some x, some y => x.col = y.col ∧ x.row = y.row ∧ x.state.is_mine = y.state.is_mine ∧
      x.state.is_flagged = y.state.is_flagged ∧ x.state.adjacent = y.state.adjacent ∧
      (x.state.is_revealed = true → y.state.is_revealed = true)
  | _, _ => False

theorem cellsMatchRev_refl (o : Option Cell) : cellsMatchRev o o := by
  cases o <;> simp [cellsMatchRev]

theorem cellsMatchRev_trans {o1 o2 o3 : Option Cell}
    (h1 : cellsMatchRev o1 o2) (h2 : cellsMatchRev o2 o3) : cellsMatchRev o1 o3 := by
  cases o1 <;> cases o2 <;> cases o3 <;> simp_all [cellsMatchRev]

/-- The board `b` is obtained from `a` without touching grid geometry,
mine layout, adjacency values or flags; revealed cells only grow. -/
def RevealOnly (a b : Board) : Prop :=
  b.cols = a.cols ∧ b.rows = a.rows ∧ b.num_mines = a.num_mines ∧
  b.mines_placed = a.mines_placed ∧ b.game_over = a.game_over ∧ b.win = a.win ∧
  b.cells.length = a.cells.length ∧ ∀ i : Nat, cellsMatchRev (a.cells[i]?) (b.cells[i]?)

theorem RevealOnly.refl (b : Board) : RevealOnly b b :=
  ⟨rfl, rfl, rfl, rfl, rfl, rfl, rfl, fun i => cellsMatchRev_refl _⟩

theorem RevealOnly.trans {a b c : Board} (h1 : RevealOnly a b) (h2 : RevealOnly b c) :
    RevealOnly a c := by
  obtain ⟨c1, c2, c3, c4, c5, c6, c7, c8⟩ := h1
  obtain ⟨d1, d2, d3, d4, d5, d6, d7, d8⟩ := h2
  exact ⟨d1.trans c1, d2.trans c2, d3.trans c3, d4.trans c4, d5.trans c5, d6.trans c6,
    d7.trans c7, fun i => cellsMatchRev_trans (c8 i) (d8 i)⟩

theorem Board.idx_congr {a b : Board} (h : b.cols = a.cols) (col row : Int) :
    b.idx col row = a.idx col row := by
  rw [Board.idx, Board.idx, Board.index, Board.index, h]

theorem Board.is_inbounds_congr {a b : Board} (hc : b.cols = a.cols) (hr : b.rows = a.rows)
    (col row : Int) : b.is_inbounds col row = a.is_inbounds col row := by
  rw [Board.is_inbounds, Board.is_inbounds, hc, hr]

theorem Board.neighbors_congr {a b : Board} (hc : b.cols = a.cols) (hr : b.rows = a.rows)
    (col row : Int) : b.neighbors col row = a.neighbors col row := by
  rw [Board.neighbors, Board.neighbors]
  congr 1
  funext p
  rw [Board.is_inbounds_congr hc hr]

theorem RevealOnly.flagQ_eq {a b : Board} (h : RevealOnly a b) (p : Int × Int) :
    b.flagQ p = a.flagQ p := by
  have h8 := h.2.2.2.2.2.2.2 (b.idx p.1 p.2)
  rw [Board.flagQ, Board.flagQ, Board.stateAt, Board.stateAt, Board.cellAt, Board.cellAt,
    Board.idx_congr h.1]
  cases ha : a.cells[a.idx p.1 p.2]? <;> cases hb : b.cells[a.idx p.1 p.2]? <;>
    rw [Board.idx_congr h.1] at h8 <;> rw [ha, hb] at h8 <;> simp_all [cellsMatchRev]

theorem RevealOnly.mineQ_eq {a b : Board} (h : RevealOnly a b) (p : Int × Int) :
    b.mineQ p = a.mineQ p := by
  have h8 := h.2.2.2.2.2.2.2 (b.idx p.1 p.2)
  rw [Board.mineQ, Board.mineQ, Board.stateAt, Board.stateAt, Board.cellAt, Board.cellAt,
    Board.idx_congr h.1]
  cases ha : a.cells[a.idx p.1 p.2]? <;> cases hb : b.cells[a.idx p.1 p.2]? <;>
    rw [Board.idx_congr h.1] at h8 <;> rw [ha, hb] at h8 <;> simp_all [cellsMatchRev]

theorem RevealOnly.adjQ_eq {a b : Board} (h : RevealOnly a b) (p : Int × Int) :
    b.adjQ p = a.adjQ p := by
  have h8 := h.2.2.2.2.2.2.2 (b.idx p.1 p.2)
  rw [Board.adjQ, Board.adjQ, Board.stateAt, Board.stateAt, Board.cellAt, Board.cellAt,
    Board.idx_congr h.1]
  cases ha : a.cells[a.idx p.1 p.2]? <;> cases hb : b.cells[a.idx p.1 p.2]? <;>
    rw [Board.idx_congr h.1] at h8 <;> rw [ha, hb] at h8 <;> simp_all [cellsMatchRev]

theorem RevealOnly.revQ_mono {a b : Board} (h : RevealOnly a b) (p : Int × Int)
    (hrev : a.revQ p = true) : b.revQ p = true := by
  have h8 := h.2.2.2.2.2.2.2 (b.idx p.1 p.2)
  rw [Board.revQ, Board.stateAt, Board.cellAt] at hrev ⊢
  rw [Board.idx_congr h.1] at h8 ⊢
  cases ha : a.cells[a.idx p.1 p.2]? <;> cases hb : b.cells[a.idx p.1 p.2]? <;>
    rw [ha, hb] at h8 <;> simp_all [cellsMatchRev]

theorem RevealOnly.WF {a b : Board} (h : RevealOnly a b) (hWF : a.WF) : b.WF := by
  apply Board.WF_of_pointwise a b h.1 h.2.1 h.2.2.2.2.2.2.1
  · intro i
    have h8 := h.2.2.2.2.2.2.2 i
    cases ha : a.cells[i]? <;> cases hb : b.cells[i]? <;> rw [ha, hb] at h8 <;>
      simp_all [cellsMatchRev]
  · exact hWF

end Minesweeper

namespace Minesweeper

/-! ## RevealOnly facts for the reveal pipeline -/

theorem Board.revealCellAt_revealOnly (b : Board) (col row : Int) :
    RevealOnly b (b.revealCellAt col row) := by
  refine ⟨rfl, rfl, rfl, rfl, rfl, rfl, ?_, ?_⟩
  · simp only [Board.revealCellAt]
    exact length_updateCell _ _ _
  · intro j
    simp only [Board.revealCellAt]
    by_cases hj : j = b.idx col row
    · rw [hj]
      cases h : b.cells[b.idx col row]? with
      | none => rw [updateCell_none h, h]; trivial
      | some c => rw [getElem?_updateCell_self h]; simp [cellsMatchRev]
    · rw [getElem?_updateCell_ne hj]
      exact cellsMatchRev_refl _

theorem floodVisit_revealOnly (acc : Board × List (Int × Int)) (q : Int × Int) :
    RevealOnly acc.1 (floodVisit acc q).1 := by
  rw [floodVisit]
  cases h : (acc.1).stateAt q.1 q.2 with
  | none => exact RevealOnly.refl _
  | some s =>
    dsimp only
    by_cases h1 : (!s.is_revealed && !s.is_flagged) = true
    · rw [if_pos h1]
      by_cases h2 : s.adjacent = 0
      · rw [if_pos h2]; exact Board.revealCellAt_revealOnly _ _ _
      · rw [if_neg h2]; exact Board.revealCellAt_revealOnly _ _ _
    · rw [if_neg h1]; exact RevealOnly.refl _

theorem foldl_floodVisit_revealOnly (L : List (Int × Int)) :
    ∀ acc : Board × List (Int × Int), RevealOnly acc.1 ((L.foldl floodVisit acc).1) := by
  induction L with
  | nil => intro acc; exact RevealOnly.refl _
  | cons q L ih =>
    intro acc
    rw [List.foldl_cons]
    exact RevealOnly.trans (floodVisit_revealOnly acc q) (ih (floodVisit acc q))

theorem floodLoop_revealOnly : ∀ (fuel : Nat) (b : Board) (st : List (Int × Int)),
    RevealOnly b (floodLoop fuel b st)
  | 0, b, _ => RevealOnly.refl b
  | _ + 1, b, [] => RevealOnly.refl b
  | fuel + 1, b, p :: rest => by
    rw [floodLoop]
    exact RevealOnly.trans (foldl_floodVisit_revealOnly (b.neighbors p.1 p.2) (b, rest))
      (floodLoop_revealOnly fuel _ _)

theorem Board.reveal_all_mines_revealOnly (b : Board) : RevealOnly b b.reveal_all_mines := by
  refine ⟨rfl, rfl, rfl, rfl, rfl, rfl, ?_, ?_⟩
  · show (b.cells.map _).length = b.cells.length
    exact List.length_map _ _
  · intro j
    show cellsMatchRev (b.cells[j]?) ((b.cells.map _)[j]?)
    rw [List.getElem?_map]
    cases h : b.cells[j]? with
    | none => trivial
    | some c =>
      by_cases hm : c.state.is_mine = true
      · simp [cellsMatchRev, hm]
      · simp [cellsMatchRev, hm]

theorem Board.check_win_cells (b : Board) : b.check_win.cells = b.cells := by
  rw [Board.check_win]
  by_cases h : b.revealed_count = b.cols * b.rows - b.num_mines ∧ b.game_over = false
  · rw [if_pos h]
  · rw [if_neg h]

theorem Board.check_win_count (b : Board) : b.check_win.revealed_count = b.revealed_count := by
  rw [Board.check_win]
  by_cases h : b.revealed_count = b.cols * b.rows - b.num_mines ∧ b.game_over = false
  · rw [if_pos h]
  · rw [if_neg h]

theorem Board.check_win_game_over (b : Board) : b.check_win.game_over = b.game_over := by
  rw [Board.check_win]
  by_cases h : b.revealed_count = b.cols * b.rows - b.num_mines ∧ b.game_over = false
  · rw [if_pos h]
  · rw [if_neg h]

theorem Board.check_win_scalars (b : Board) : b.check_win.cols = b.cols ∧
    b.check_win.rows = b.rows ∧ b.check_win.num_mines = b.num_mines ∧
    b.check_win.mines_placed = b.mines_placed := by
  rw [Board.check_win]
  by_cases h : b.revealed_count = b.cols * b.rows - b.num_mines ∧ b.game_over = false
  · rw [if_pos h]; exact ⟨rfl, rfl, rfl, rfl⟩
  · rw [if_neg h]; exact ⟨rfl, rfl, rfl, rfl⟩

/-! ## Terminal states: reveal and toggle_flag are no-ops (claim groundwork) -/

theorem Board.reveal_terminal (b : Board) (sample : List (Int × Int)) (col row : Int)
    (h : b.game_over = true ∨ b.win = true) : b.reveal sample col row = b := by
  rw [Board.reveal]
  rcases h with h | h <;> simp [h]

theorem Board.toggle_flag_terminal (b : Board) (col row : Int)
    (h : b.game_over = true ∨ b.win = true) : b.toggle_flag col row = b := by
  rw [Board.toggle_flag]
  rcases h with h | h <;> simp [h]

end Minesweeper

namespace Minesweeper

/-! ## Counting revealed cells -/

/-- Number of cells with `is_revealed == true`. -/
def Board.revealedCells (b : Board) : Nat :=
  b.cells.countP (fun c => c.state.is_revealed)

/-- Number of cells with `is_revealed == false` (termination measure for the flood fill). -/
def Board.unrevealedCount (b : Board) : Nat :=
  b.cells.countP (fun c => !c.state.is_revealed)

/-- The counter `revealed_count` agrees with the actual number of revealed cells. -/
def CountSync (b : Board) : Prop := b.revealed_count = (b.revealedCells : Int)

theorem Board.revealCellAt_revealedCells (b : Board) {col row : Int} {s : CellState}
    (h : b.stateAt col row = some s) (hrev : s.is_revealed = false) :
    (b.revealCellAt col row).revealedCells = b.revealedCells + 1 := by
  rw [Board.stateAt, Board.cellAt] at h
  obtain ⟨c, hc, hcs⟩ : ∃ c, b.cells[b.idx col row]? = some c ∧ c.state = s := by
    cases hx : b.cells[b.idx col row]? with
    | none => rw [hx] at h; simp at h
    | some c => rw [hx] at h; exact ⟨c, rfl, by simpa using h⟩
  simp only [Board.revealCellAt, Board.revealedCells]
  rw [countP_updateCell hc]
  simp [hcs, hrev]

theorem Board.revealCellAt_unrevealedCount (b : Board) {col row : Int} {s : CellState}
    (h : b.stateAt col row = some s) (hrev : s.is_revealed = false) :
    b.unrevealedCount = (b.revealCellAt col row).unrevealedCount + 1 := by
  rw [Board.stateAt, Board.cellAt] at h
  obtain ⟨c, hc, hcs⟩ : ∃ c, b.cells[b.idx col row]? = some c ∧ c.state = s := by
    cases hx : b.cells[b.idx col row]? with
    | none => rw [hx] at h; simp at h
    | some c => rw [hx] at h; exact ⟨c, rfl, by simpa using h⟩
  obtain ⟨hlt, hgl⟩ := List.getElem?_eq_some_iff.mp hc
  have hpos : 1 ≤ b.cells.countP (fun c : Cell => !c.state.is_revealed) := by
    have hb := List.boole_getElem_le_countP (fun c : Cell => !c.state.is_revealed) b.cells
      (b.idx col row) hlt
    rw [hgl] at hb
    simp only [hcs, hrev] at hb
    simpa using hb
  simp only [Board.revealCellAt, Board.unrevealedCount]
  rw [countP_updateCell hc]
  simp only [Board.unrevealedCount] at hpos
  simp [hcs, hrev]
  omega

theorem Board.revealCellAt_count (b : Board) (col row : Int) :
    (b.revealCellAt col row).revealed_count = b.revealed_count + 1 := rfl

/-- Effect of one flood-fill neighbor visit on counters and stack. -/
theorem floodVisit_spec (acc : Board × List (Int × Int)) (q : Int × Int) :
    (floodVisit acc q = acc) ∨
    ((floodVisit acc q).1.revealed_count = acc.1.revealed_count + 1 ∧
     (floodVisit acc q).1.revealedCells = acc.1.revealedCells + 1 ∧
     acc.1.unrevealedCount = (floodVisit acc q).1.unrevealedCount + 1 ∧
     ((floodVisit acc q).2 = acc.2 ∨ (floodVisit acc q).2 = q :: acc.2)) := by
  rw [floodVisit]
  cases h : (acc.1).stateAt q.1 q.2 with
  | none => exact Or.inl rfl
  | some s =>
    dsimp only
    by_cases h1 : (!s.is_revealed && !s.is_flagged) = true
    · rw [if_pos h1]
      have hrev : s.is_revealed = false := by
        revert h1
        cases s.is_revealed <;> simp
      right
      by_cases h2 : s.adjacent = 0
      · rw [if_pos h2]
        exact ⟨rfl, acc.1.revealCellAt_revealedCells h hrev,
          acc.1.revealCellAt_unrevealedCount h hrev, Or.inr rfl⟩
      · rw [if_neg h2]
        exact ⟨rfl, acc.1.revealCellAt_revealedCells h hrev,
          acc.1.revealCellAt_unrevealedCount h hrev, Or.inl rfl⟩
    · rw [if_neg h1]
      exact Or.inl rfl

theorem foldl_floodVisit_countSync (L : List (Int × Int)) :
    ∀ acc : Board × List (Int × Int), CountSync acc.1 →
      CountSync ((L.foldl floodVisit acc).1) := by
  induction L with
  | nil => intro acc h; exact h
  | cons q L ih =>
    intro acc h
    rw [List.foldl_cons]
    apply ih
    rcases floodVisit_spec acc q with heq | ⟨h1, h2, _, _⟩
    · rw [heq]; exact h
    · rw [CountSync, h1, h2, h]; push_cast; ring

theorem foldl_floodVisit_count_mono (L : List (Int × Int)) :
    ∀ acc : Board × List (Int × Int),
      acc.1.revealed_count ≤ ((L.foldl floodVisit acc).1).revealed_count := by
  induction L with
  | nil => intro acc; exact le_refl _
  | cons q L ih =>
    intro acc
    rw [List.foldl_cons]
    refine le_trans ?_ (ih (floodVisit acc q))
    rcases floodVisit_spec acc q with heq | ⟨h1, _, _, _⟩
    · rw [heq]
    · rw [h1]; omega

theorem foldl_floodVisit_measure (L : List (Int × Int)) :
    ∀ acc : Board × List (Int × Int),
      ((L.foldl floodVisit acc).2).length + ((L.foldl floodVisit acc).1).unrevealedCount ≤
        acc.2.length + acc.1.unrevealedCount := by
  induction L with
  | nil => intro acc; exact le_refl _
  | cons q L ih =>
    intro acc
    rw [List.foldl_cons]
    refine le_trans (ih (floodVisit acc q)) ?_
    rcases floodVisit_spec acc q with heq | ⟨_, _, h3, h4⟩
    · rw [heq]
    · rcases h4 with h4 | h4 <;> rw [h4] <;> simp <;> omega

theorem floodLoop_countSync : ∀ (fuel : Nat) (b : Board) (st : List (Int × Int)),
    CountSync b → CountSync (floodLoop fuel b st)
  | 0, b, _, h => h
  | _ + 1, b, [], h => h
  | fuel + 1, b, p :: rest, h => by
    rw [floodLoop]
    exact floodLoop_countSync fuel _ _
      (foldl_floodVisit_countSync (b.neighbors p.1 p.2) (b, rest) h)

theorem floodLoop_count_mono : ∀ (fuel : Nat) (b : Board) (st : List (Int × Int)),
    b.revealed_count ≤ (floodLoop fuel b st).revealed_count
  | 0, b, _ => le_refl _
  | _ + 1, b, [] => le_refl _
  | fuel + 1, b, p :: rest => by
    rw [floodLoop]
    refine le_trans ?_ (floodLoop_count_mono fuel _ _)
    exact foldl_floodVisit_count_mono (b.neighbors p.1 p.2) (b, rest)

end Minesweeper

namespace Minesweeper

/-! ## place_mines changes only `is_mine` and `adjacent` -/

/-- Cellwise comparison: coordinates, `is_revealed` and `is_flagged` are
unchanged (`is_mine` / `adjacent` are free to change). -/
def cellsMatchPlace : Option Cell → Option Cell → Prop
  | none, none => True
  | some x, some y => x.col = y.col ∧ x.row = y.row ∧
      x.state.is_revealed = y.state.is_revealed ∧ x.state.is_flagged = y.state.is_flagged
  | _, _ => False

theorem cellsMatchPlace_refl (o : Option Cell) : cellsMatchPlace o o := by
  cases o <;> simp [cellsMatchPlace]

theorem cellsMatchPlace_trans {o1 o2 o3 : Option Cell}
    (h1 : cellsMatchPlace o1 o2) (h2 : cellsMatchPlace o2 o3) : cellsMatchPlace o1 o3 := by
  cases o1 <;> cases o2 <;> cases o3 <;> simp_all [cellsMatchPlace]

theorem cellsMatchPlace_set {cs : List Cell} {i : Nat} {c c' : Cell} (h : cs[i]? = some c)
    (h1 : c'.col = c.col) (h2 : c'.row = c.row)
    (h3 : c'.state.is_revealed = c.state.is_revealed)
    (h4 : c'.state.is_flagged = c.state.is_flagged) :
    ∀ j : Nat, cellsMatchPlace (cs[j]?) ((cs.set i c')[j]?) := by
  intro j
  by_cases hj : j = i
  · subst hj
    obtain ⟨hlt, _⟩ := List.getElem?_eq_some_iff.mp h
    rw [h, List.getElem?_set_self hlt]
    exact ⟨h1.symm, h2.symm, h3.symm, h4.symm⟩
  · rw [List.getElem?_set_ne (fun he => hj he.symm)]
    exact cellsMatchPlace_refl _

theorem cellsMatchPlace_updateCell (cs : List Cell) (i : Nat) (f : CellState → CellState)
    (hf : ∀ s, (f s).is_revealed = s.is_revealed ∧ (f s).is_flagged = s.is_flagged) :
    ∀ j : Nat, cellsMatchPlace (cs[j]?) ((updateCell cs i f)[j]?) := by
  intro j
  cases h : cs[i]? with
  | none => rw [updateCell_none h]; exact cellsMatchPlace_refl _
  | some c =>
    rw [updateCell, h]
    refine cellsMatchPlace_set h ?_ ?_ ?_ ?_ j
    · rfl
    · rfl
    · exact (hf c.state).1
    · exact (hf c.state).2

theorem place_fold1_spec (b : Board) (sample : List (Int × Int)) :
    ∀ cs : List Cell,
      (List.foldl (fun cs p =>
        updateCell cs (b.idx p.1 p.2) (fun s => { s with is_mine := true })) cs sample).length
          = cs.length ∧
      ∀ j : Nat, cellsMatchPlace (cs[j]?) ((List.foldl (fun cs p =>
        updateCell cs (b.idx p.1 p.2) (fun s => { s with is_mine := true })) cs sample)[j]?) := by
  induction sample with
  | nil => intro cs; exact ⟨rfl, fun j => cellsMatchPlace_refl _⟩
  | cons p rest ih =>
    intro cs
    rw [List.foldl_cons]
    refine ⟨?_, ?_⟩
    · rw [(ih _).1, length_updateCell]
    · intro j
      exact cellsMatchPlace_trans
        (cellsMatchPlace_updateCell cs (b.idx p.1 p.2)
          (fun s => { s with is_mine := true }) (fun s => ⟨rfl, rfl⟩) j)
        ((ih _).2 j)

theorem place_fold2_step (b : Board) (cs : List Cell) (p : Int × Int) :
    (match cs[b.idx p.1 p.2]? with
      | some cell =>
          if cell.state.is_mine then cs
          else cs.set (b.idx p.1 p.2)
            { cell with state := { cell.state with
                adjacent := (((b.neighbors p.1 p.2).filter (fun (q : Int × Int) =>
                  ((cs[b.idx q.1 q.2]?).map (fun (c : Cell) => c.state.is_mine)).getD false)).length : Int) } }
      | none => cs).length = cs.length ∧
    ∀ j : Nat, cellsMatchPlace (cs[j]?) ((match cs[b.idx p.1 p.2]? with
      | some cell =>
          if cell.state.is_mine then cs
          else cs.set (b.idx p.1 p.2)
            { cell with state := { cell.state with
                adjacent := (((b.neighbors p.1 p.2).filter (fun (q : Int × Int) =>
                  ((cs[b.idx q.1 q.2]?).map (fun (c : Cell) => c.state.is_mine)).getD false)).length : Int) } }
      | none => cs)[j]?) := by
  cases hx : cs[b.idx p.1 p.2]? with
  | none => exact ⟨rfl, fun j => cellsMatchPlace_refl _⟩
  | some cell =>
    dsimp only
    by_cases hm : cell.state.is_mine = true
    · rw [if_pos hm]
      exact ⟨rfl, fun j => cellsMatchPlace_refl _⟩
    · rw [if_neg hm]
      refine ⟨List.length_set _ _ _, fun j => ?_⟩
      refine cellsMatchPlace_set hx ?_ ?_ ?_ ?_ j <;> rfl

theorem place_fold2_spec (b : Board) (L : List (Int × Int)) :
    ∀ cs : List Cell,
      (List.foldl (fun cs p =>
        match cs[b.idx p.1 p.2]? with
        | some cell =>
            if cell.state.is_mine then cs
            else cs.set (b.idx p.1 p.2)
              { cell with state := { cell.state with
                  adjacent := (((b.neighbors p.1 p.2).filter (fun q =>
                    ((cs[b.idx q.1 q.2]?).map (fun c => c.state.is_mine)).getD false)).length : Int) } }
        | none => cs) cs L).length = cs.length ∧
      ∀ j : Nat, cellsMatchPlace (cs[j]?) ((List.foldl (fun cs p =>
        match cs[b.idx p.1 p.2]? with
        | some cell =>
            if cell.state.is_mine then cs
            else cs.set (b.idx p.1 p.2)
              { cell with state := { cell.state with
                  adjacent := (((b.neighbors p.1 p.2).filter (fun q =>
                    ((cs[b.idx q.1 q.2]?).map (fun c => c.state.is_mine)).getD false)).length : Int) } }
        | none => cs) cs L)[j]?) := by
  induction L with
  | nil => intro cs; exact ⟨rfl, fun j => cellsMatchPlace_refl _⟩
  | cons p rest ih =>
    intro cs
    rw [List.foldl_cons]
    obtain ⟨hlen, hmatch⟩ := place_fold2_step b cs p
    obtain ⟨hlen2, hmatch2⟩ := ih _
    exact ⟨hlen2.trans hlen, fun j => cellsMatchPlace_trans (hmatch j) (hmatch2 j)⟩

theorem Board.place_mines_match (b : Board) (sample : List (Int × Int)) (sc sr : Int) :
    (b.place_mines sample sc sr).cells.length = b.cells.length ∧
    ∀ j : Nat, cellsMatchPlace (b.cells[j]?) ((b.place_mines sample sc sr).cells[j]?) := by
  simp only [Board.place_mines]
  obtain ⟨hl1, hm1⟩ := place_fold1_spec b sample b.cells
  obtain ⟨hl2, hm2⟩ := place_fold2_spec b b.all_positions _
  exact ⟨hl2.trans hl1, fun j => cellsMatchPlace_trans (hm1 j) (hm2 j)⟩

theorem Board.place_mines_scalars (b : Board) (sample : List (Int × Int)) (sc sr : Int) :
    (b.place_mines sample sc sr).cols = b.cols ∧ (b.place_mines sample sc sr).rows = b.rows ∧
    (b.place_mines sample sc sr).num_mines = b.num_mines ∧
    (b.place_mines sample sc sr).revealed_count = b.revealed_count ∧
    (b.place_mines sample sc sr).game_over = b.game_over ∧
    (b.place_mines sample sc sr).win = b.win ∧
    (b.place_mines sample sc sr).mines_placed = true :=
  ⟨rfl, rfl, rfl, rfl, rfl, rfl, rfl⟩

theorem cellsMatchPlace_revmap {o o' : Option Cell} (h : cellsMatchPlace o o') :
    o.map (fun c => c.state.is_revealed) = o'.map (fun c => c.state.is_revealed) := by
  cases o <;> cases o' <;> simp_all [cellsMatchPlace]

theorem cellsMatchPlace_flagmap {o o' : Option Cell} (h : cellsMatchPlace o o') :
    o.map (fun c => c.state.is_flagged) = o'.map (fun c => c.state.is_flagged) := by
  cases o <;> cases o' <;> simp_all [cellsMatchPlace]

theorem cellsMatchPlace_coordmap {o o' : Option Cell} (h : cellsMatchPlace o o') :
    o.map (fun c => (c.col, c.row)) = o'.map (fun c => (c.col, c.row)) := by
  cases o <;> cases o' <;> simp_all [cellsMatchPlace]

theorem Board.place_mines_revQ (b : Board) (sample : List (Int × Int)) (sc sr : Int)
    (p : Int × Int) : (b.place_mines sample sc sr).revQ p = b.revQ p := by
  have h := (b.place_mines_match sample sc sr).2 ((b.place_mines sample sc sr).idx p.1 p.2)
  have hidx : (b.place_mines sample sc sr).idx p.1 p.2 = b.idx p.1 p.2 :=
    Board.idx_congr (b.place_mines_scalars sample sc sr).1 p.1 p.2
  rw [Board.revQ, Board.revQ, Board.stateAt, Board.stateAt, Board.cellAt, Board.cellAt, hidx]
  rw [hidx] at h
  have := cellsMatchPlace_revmap h
  cases hx : b.cells[b.idx p.1 p.2]? <;>
    cases hy : (b.place_mines sample sc sr).cells[b.idx p.1 p.2]? <;>
    rw [hx, hy] at this <;> simp_all

theorem Board.place_mines_flagQ (b : Board) (sample : List (Int × Int)) (sc sr : Int)
    (p : Int × Int) : (b.place_mines sample sc sr).flagQ p = b.flagQ p := by
  have h := (b.place_mines_match sample sc sr).2 (b.idx p.1 p.2)
  rw [Board.flagQ, Board.flagQ, Board.stateAt, Board.stateAt, Board.cellAt, Board.cellAt,
    Board.idx_congr (b.place_mines_scalars sample sc sr).1]
  have := cellsMatchPlace_flagmap h
  cases hx : b.cells[b.idx p.1 p.2]? <;>
    cases hy : (b.place_mines sample sc sr).cells[b.idx p.1 p.2]? <;>
    rw [hx, hy] at this <;> simp_all

theorem Board.place_mines_revealedCells (b : Board) (sample : List (Int × Int)) (sc sr : Int) :
    (b.place_mines sample sc sr).revealedCells = b.revealedCells := by
  rw [Board.revealedCells, Board.revealedCells]
  apply countP_congr_pointwise _ _ _ (b.place_mines_match sample sc sr).1
  intro i
  exact (cellsMatchPlace_revmap ((b.place_mines_match sample sc sr).2 i)).symm

theorem Board.place_mines_countSync (b : Board) (sample : List (Int × Int)) (sc sr : Int)
    (h : CountSync b) : CountSync (b.place_mines sample sc sr) := by
  rw [CountSync, (b.place_mines_scalars sample sc sr).2.2.2.1, b.place_mines_revealedCells]
  exact h

theorem Board.place_mines_WF (b : Board) (sample : List (Int × Int)) (sc sr : Int)
    (hWF : b.WF) : (b.place_mines sample sc sr).WF := by
  apply Board.WF_of_pointwise b _ (b.place_mines_scalars sample sc sr).1
    (b.place_mines_scalars sample sc sr).2.1 (b.place_mines_match sample sc sr).1
  · intro i
    exact (cellsMatchPlace_coordmap ((b.place_mines_match sample sc sr).2 i)).symm
  · exact hWF

end Minesweeper

namespace Minesweeper

/-! ## toggle_flag characterization -/

/-- Cellwise comparison: only `is_flagged` may change. -/
def cellsMatchFlag : Option Cell → Option Cell → Prop
  | none, none => True
  | some x, some y => x.col = y.col ∧ x.row = y.row ∧ x.state.is_mine = y.state.is_mine ∧
      x.state.is_revealed = y.state.is_revealed ∧ x.state.adjacent = y.state.adjacent
  | _, _ => False

theorem cellsMatchFlag_refl (o : Option Cell) : cellsMatchFlag o o := by
  cases o <;> simp [cellsMatchFlag]

/-- The cell list produced by the mutating branch of `toggle_flag`. -/
def Board.toggledCells (b : Board) (col row : Int) : List Cell :=
  updateCell b.cells (b.idx col row) (fun st => { st with is_flagged := !st.is_flagged })

theorem Board.toggle_flag_cases (b : Board) (col row : Int) :
    b.toggle_flag col row = b ∨
    (b.is_inbounds col row = true ∧ b.game_over = false ∧ b.win = false ∧
     ∃ s, b.stateAt col row = some s ∧ s.is_revealed = false ∧
       b.toggle_flag col row = { b with cells := b.toggledCells col row }) := by
  rw [Board.toggle_flag]
  by_cases hg : (!b.is_inbounds col row || b.game_over || b.win) = true
  · rw [if_pos hg]
    exact Or.inl rfl
  · rw [if_neg hg]
    have h3 : b.is_inbounds col row = true ∧ b.game_over = false ∧ b.win = false := by
      revert hg
      cases b.is_inbounds col row <;> cases b.game_over <;> cases b.win <;> simp
    cases hs : b.stateAt col row with
    | none => exact Or.inl rfl
    | some s =>
      dsimp only
      by_cases hr : s.is_revealed = true
      · rw [if_pos hr]
        exact Or.inl rfl
      · rw [if_neg hr]
        right
        exact ⟨h3.1, h3.2.1, h3.2.2, s, rfl, by simpa using hr, rfl⟩

theorem Board.toggle_flag_scalars (b : Board) (col row : Int) :
    (b.toggle_flag col row).cols = b.cols ∧ (b.toggle_flag col row).rows = b.rows ∧
    (b.toggle_flag col row).num_mines = b.num_mines ∧
    (b.toggle_flag col row).mines_placed = b.mines_placed ∧
    (b.toggle_flag col row).revealed_count = b.revealed_count ∧
    (b.toggle_flag col row).game_over = b.game_over ∧
    (b.toggle_flag col row).win = b.win := by
  rcases b.toggle_flag_cases col row with h | ⟨_, _, _, s, _, _, h⟩ <;>
    rw [h] <;> exact ⟨rfl, rfl, rfl, rfl, rfl, rfl, rfl⟩

theorem Board.toggle_flag_match (b : Board) (col row : Int) :
    (b.toggle_flag col row).cells.length = b.cells.length ∧
    ∀ j : Nat, cellsMatchFlag (b.cells[j]?) ((b.toggle_flag col row).cells[j]?) := by
  rcases b.toggle_flag_cases col row with h | ⟨_, _, _, s, _, _, h⟩
  · rw [h]
    exact ⟨rfl, fun j => cellsMatchFlag_refl _⟩
  · rw [h]
    refine ⟨?_, fun j => ?_⟩
    · show (updateCell b.cells (b.idx col row)
        (fun st => { st with is_flagged := !st.is_flagged })).length = b.cells.length
      exact length_updateCell _ _ _
    show cellsMatchFlag (b.cells[j]?)
      ((updateCell b.cells (b.idx col row) (fun st => { st with is_flagged := !st.is_flagged }))[j]?)
    by_cases hj : j = b.idx col row
    · rw [hj]
      cases hc : b.cells[b.idx col row]? with
      | none => rw [updateCell_none hc, hc]; trivial
      | some c =>
        rw [getElem?_updateCell_self hc]
        exact ⟨rfl, rfl, rfl, rfl, rfl⟩
    · rw [getElem?_updateCell_ne hj]
      exact cellsMatchFlag_refl _

theorem cellsMatchFlag_revmap {o o' : Option Cell} (h : cellsMatchFlag o o') :
    o.map (fun c => c.state.is_revealed) = o'.map (fun c => c.state.is_revealed) := by
  cases o <;> cases o' <;> simp_all [cellsMatchFlag]

theorem cellsMatchFlag_coordmap {o o' : Option Cell} (h : cellsMatchFlag o o') :
    o.map (fun c => (c.col, c.row)) = o'.map (fun c => (c.col, c.row)) := by
  cases o <;> cases o' <;> simp_all [cellsMatchFlag]

theorem Board.toggle_flag_revealedCells (b : Board) (col row : Int) :
    (b.toggle_flag col row).revealedCells = b.revealedCells := by
  rw [Board.revealedCells, Board.revealedCells]
  apply countP_congr_pointwise _ _ _ (b.toggle_flag_match col row).1
  intro i
  exact (cellsMatchFlag_revmap ((b.toggle_flag_match col row).2 i)).symm

theorem Board.toggle_flag_countSync (b : Board) (col row : Int) (h : CountSync b) :
    CountSync (b.toggle_flag col row) := by
  rw [CountSync, (b.toggle_flag_scalars col row).2.2.2.2.1, b.toggle_flag_revealedCells]
  exact h

theorem Board.toggle_flag_WF (b : Board) (col row : Int) (hWF : b.WF) :
    (b.toggle_flag col row).WF := by
  apply Board.WF_of_pointwise b _ (b.toggle_flag_scalars col row).1
    (b.toggle_flag_scalars col row).2.1 (b.toggle_flag_match col row).1
  · intro i
    exact (cellsMatchFlag_coordmap ((b.toggle_flag_match col row).2 i)).symm
  · exact hWF

/-! ## reveal: no-op branches and the main branch -/

theorem Board.reveal_oob (b : Board) (sample : List (Int × Int)) (col row : Int)
    (h : b.is_inbounds col row = false) : b.reveal sample col row = b := by
  rw [Board.reveal]
  rw [if_pos]
  rw [h]
  rfl

theorem Board.reveal_noop_cell (b : Board) (sample : List (Int × Int)) (col row : Int)
    {s : CellState} (hs : b.stateAt col row = some s)
    (h : s.is_revealed = true ∨ s.is_flagged = true) : b.reveal sample col row = b := by
  rw [Board.reveal]
  by_cases hg : (!b.is_inbounds col row || b.game_over || b.win) = true
  · rw [if_pos hg]
  · rw [if_neg hg, hs]
    dsimp only
    rw [if_pos]
    rcases h with h | h <;> rw [h] <;> simp

theorem Board.reveal_main (b : Board) (sample : List (Int × Int)) (col row : Int)
    (hin : b.is_inbounds col row = true) (hgo : b.game_over = false) (hwin : b.win = false)
    {s : CellState} (hs : b.stateAt col row = some s) (hrev : s.is_revealed = false)
    (hflag : s.is_flagged = false) :
    b.reveal sample col row =
      (let b1 := if b.mines_placed then b else b.place_mines sample col row
       let b2 := b1.revealCellAt col row
       match b2.stateAt col row with
       | none => b2
       | some s2 =>
         if s2.is_mine then ({ b2 with game_over := true }).reveal_all_mines
         else
           let b3 := if s2.adjacent = 0 then floodLoop (b2.cells.length + 1) b2 [(col, row)]
             else b2
           b3.check_win) := by
  rw [Board.reveal]
  rw [if_neg (by rw [hin, hgo, hwin]; simp)]
  rw [hs]
  dsimp only
  rw [if_neg (by rw [hrev, hflag]; simp)]

end Minesweeper

namespace Minesweeper

/-! ## The reveal case analysis -/

theorem Board.stateAt_elim {b : Board} {col row : Int} {s : CellState}
    (h : b.stateAt col row = some s) :
    ∃ c, b.cells[b.idx col row]? = some c ∧ c.state = s := by
  rw [Board.stateAt, Board.cellAt] at h
  cases hx : b.cells[b.idx col row]? with
  | none => rw [hx] at h; simp at h
  | some c => rw [hx] at h; exact ⟨c, rfl, by simpa using h⟩

theorem Board.stateAt_of_cell {b : Board} {col row : Int} {c : Cell}
    (h : b.cells[b.idx col row]? = some c) : b.stateAt col row = some c.state := by
  rw [Board.stateAt, Board.cellAt, h]
  rfl

theorem Board.reveal_none (b : Board) (sample : List (Int × Int)) (col row : Int)
    (hs : b.stateAt col row = none) : b.reveal sample col row = b := by
  rw [Board.reveal]
  by_cases hg : (!b.is_inbounds col row || b.game_over || b.win) = true
  · rw [if_pos hg]
  · rw [if_neg hg, hs]

theorem Board.revealCellAt_stateAt_self (b : Board) (col row : Int) {c : Cell}
    (h : b.cells[b.idx col row]? = some c) :
    (b.revealCellAt col row).stateAt col row = some { c.state with is_revealed := true } := by
  rw [Board.stateAt, Board.cellAt]
  have hidx : (b.revealCellAt col row).idx col row = b.idx col row := rfl
  rw [hidx]
  show (updateCell b.cells (b.idx col row)
    (fun s => { s with is_revealed := true }))[b.idx col row]?.map Cell.state = _
  rw [getElem?_updateCell_self h]
  rfl

/-- The board after the clicked cell has been revealed (including lazy
placement); `b2` in the decomposition of `reveal`. -/
def Board.revealBase (b : Board) (sample : List (Int × Int)) (col row : Int) : Board :=
  (if b.mines_placed then b else b.place_mines sample col row).revealCellAt col row

/-- Full case analysis of `reveal`: either a silent no-op, or the clicked
cell was revealable and the result is the mine branch, the flood-fill
branch, or the plain branch, according to the clicked cell's state after
placement. -/
theorem Board.reveal_cases (b : Board) (sample : List (Int × Int)) (col row : Int) :
    b.reveal sample col row = b ∨
    (b.is_inbounds col row = true ∧ b.game_over = false ∧ b.win = false ∧
     ∃ s1 : CellState,
       (if b.mines_placed then b else b.place_mines sample col row).stateAt col row = some s1 ∧
       s1.is_revealed = false ∧ s1.is_flagged = false ∧
       ((s1.is_mine = true ∧ b.reveal sample col row =
          ({ b.revealBase sample col row with game_over := true }).reveal_all_mines) ∨
        (s1.is_mine = false ∧ s1.adjacent = 0 ∧ b.reveal sample col row =
          (floodLoop ((b.revealBase sample col row).cells.length + 1)
            (b.revealBase sample col row) [(col, row)]).check_win) ∨
        (s1.is_mine = false ∧ ¬ s1.adjacent = 0 ∧ b.reveal sample col row =
          (b.revealBase sample col row).check_win))) := by
  by_cases hgo : b.game_over = true
  · exact Or.inl (b.reveal_terminal sample col row (Or.inl hgo))
  by_cases hwin : b.win = true
  · exact Or.inl (b.reveal_terminal sample col row (Or.inr hwin))
  have hgo' : b.game_over = false := by revert hgo; cases b.game_over <;> simp
  have hwin' : b.win = false := by revert hwin; cases b.win <;> simp
  by_cases hin : b.is_inbounds col row = true
  case neg =>
    refine Or.inl (b.reveal_oob sample col row ?_)
    revert hin
    cases b.is_inbounds col row <;> simp
  cases hs : b.stateAt col row with
  | none => exact Or.inl (b.reveal_none sample col row hs)
  | some s =>
  by_cases hrev : s.is_revealed = true
  · exact Or.inl (b.reveal_noop_cell sample col row hs (Or.inl hrev))
  by_cases hflag : s.is_flagged = true
  · exact Or.inl (b.reveal_noop_cell sample col row hs (Or.inr hflag))
  have hrev' : s.is_revealed = false := by revert hrev; cases s.is_revealed <;> simp
  have hflag' : s.is_flagged = false := by revert hflag; cases s.is_flagged <;> simp
  right
  refine ⟨hin, hgo', hwin', ?_⟩
  obtain ⟨c, hc, hcs⟩ := Board.stateAt_elim hs
  have hb1 : (if b.mines_placed then b else b.place_mines sample col row).cols = b.cols ∧
      ∀ j : Nat, cellsMatchPlace (b.cells[j]?)
        ((if b.mines_placed then b else b.place_mines sample col row).cells[j]?) := by
    by_cases hp : b.mines_placed = true
    · rw [if_pos hp]
      exact ⟨rfl, fun j => cellsMatchPlace_refl _⟩
    · rw [if_neg hp]
      exact ⟨(b.place_mines_scalars sample col row).1, (b.place_mines_match sample col row).2⟩
  obtain ⟨c1, hc1, he1, he2, he3, he4⟩ : ∃ c1,
      (if b.mines_placed then b else b.place_mines sample col row).cells[b.idx col row]? = some c1 ∧
      c1.col = c.col ∧ c1.row = c.row ∧ c1.state.is_revealed = false ∧
      c1.state.is_flagged = false := by
    have hm := hb1.2 (b.idx col row)
    rw [hc] at hm
    cases hy : (if b.mines_placed then b else b.place_mines sample col row).cells[b.idx col row]? with
    | none => rw [hy] at hm; exact absurd hm (by simp [cellsMatchPlace])
    | some c1 =>
      rw [hy] at hm
      obtain ⟨e1, e2, e3, e4⟩ := hm
      exact ⟨c1, rfl, e1.symm, e2.symm, by rw [← e3, hcs, hrev'], by rw [← e4, hcs, hflag']⟩
  have hidx1 : (if b.mines_placed then b else b.place_mines sample col row).idx col row
      = b.idx col row := Board.idx_congr hb1.1 col row
  have hb1s : (if b.mines_placed then b else b.place_mines sample col row).stateAt col row
      = some c1.state := by
    apply Board.stateAt_of_cell
    rw [hidx1]
    exact hc1
  have hc1' : (if b.mines_placed then b else b.place_mines sample col row).cells[
      (if b.mines_placed then b else b.place_mines sample col row).idx col row]? = some c1 := by
    rw [hidx1]
    exact hc1
  have hb2s : ((if b.mines_placed then b else b.place_mines sample col row).revealCellAt
      col row).stateAt col row = some { c1.state with is_revealed := true } :=
    Board.revealCellAt_stateAt_self _ col row hc1'
  rw [b.reveal_main sample col row hin hgo' hwin' hs hrev' hflag']
  dsimp only
  rw [hb2s]
  dsimp only
  refine ⟨c1.state, hb1s, he3, he4, ?_⟩
  by_cases hm : c1.state.is_mine = true
  · rw [if_pos hm]
    exact Or.inl ⟨hm, rfl⟩
  · rw [if_neg hm]
    have hm' : c1.state.is_mine = false := by revert hm; cases c1.state.is_mine <;> simp
    by_cases ha : c1.state.adjacent = 0
    · rw [if_pos ha]
      exact Or.inr (Or.inl ⟨hm', ha, rfl⟩)
    · rw [if_neg ha]
      exact Or.inr (Or.inr ⟨hm', ha, rfl⟩)

end Minesweeper

namespace Minesweeper

/-! ## Counter and outcome invariants through reveal / toggle -/

theorem Board.revealCellAt_countSync (b : Board) {col row : Int} {s : CellState}
    (hsync : CountSync b) (hs : b.stateAt col row = some s) (hrev : s.is_revealed = false) :
    CountSync (b.revealCellAt col row) := by
  rw [CountSync, Board.revealCellAt_count, b.revealCellAt_revealedCells hs hrev, hsync]
  push_cast
  ring

theorem Board.check_win_countSync (b : Board) (h : CountSync b) : CountSync b.check_win := by
  rw [CountSync, Board.check_win_count, Board.revealedCells, Board.check_win_cells]
  exact h

theorem Board.reveal_all_mines_count (b : Board) :
    b.reveal_all_mines.revealed_count = b.revealed_count := rfl

theorem Board.b1_facts (b : Board) (sample : List (Int × Int)) (col row : Int) :
    (if b.mines_placed then b else b.place_mines sample col row).game_over = b.game_over ∧
    (if b.mines_placed then b else b.place_mines sample col row).win = b.win ∧
    (if b.mines_placed then b else b.place_mines sample col row).revealed_count
      = b.revealed_count ∧
    (CountSync b → CountSync (if b.mines_placed then b else b.place_mines sample col row)) := by
  by_cases hp : b.mines_placed = true
  · rw [if_pos hp]
    exact ⟨rfl, rfl, rfl, fun h => h⟩
  · rw [if_neg hp]
    refine ⟨(b.place_mines_scalars sample col row).2.2.2.2.1,
      (b.place_mines_scalars sample col row).2.2.2.2.2.1,
      (b.place_mines_scalars sample col row).2.2.2.1,
      fun h => b.place_mines_countSync sample col row h⟩

theorem Board.reveal_countSync_pres (b : Board) (sample : List (Int × Int)) (col row : Int)
    (h : b.game_over = false → CountSync b) :
    (b.reveal sample col row).game_over = false → CountSync (b.reveal sample col row) := by
  rcases b.reveal_cases sample col row with heq | ⟨hin, hgo, hwin, s1, hb1s, hrev1, hflag1, hbr⟩
  · rw [heq]; exact h
  have hsync : CountSync b := h hgo
  have hb1sync : CountSync (if b.mines_placed then b else b.place_mines sample col row) :=
    (b.b1_facts sample col row).2.2.2 hsync
  have hb2sync : CountSync (b.revealBase sample col row) :=
    Board.revealCellAt_countSync _ hb1sync hb1s hrev1
  rcases hbr with ⟨hm, he⟩ | ⟨hm, ha, he⟩ | ⟨hm, ha, he⟩
  · intro hgof
    exfalso
    rw [he] at hgof
    have hro := Board.reveal_all_mines_revealOnly
      ({ b.revealBase sample col row with game_over := true })
    rw [hro.2.2.2.2.1] at hgof
    simp at hgof
  · intro _
    rw [he]
    exact Board.check_win_countSync _ (floodLoop_countSync _ _ _ hb2sync)
  · intro _
    rw [he]
    exact Board.check_win_countSync _ hb2sync

theorem Board.reveal_count_mono (b : Board) (sample : List (Int × Int)) (col row : Int) :
    b.revealed_count ≤ (b.reveal sample col row).revealed_count := by
  rcases b.reveal_cases sample col row with heq | ⟨hin, hgo, hwin, s1, hb1s, hrev1, hflag1, hbr⟩
  · rw [heq]
  have hb2c : (b.revealBase sample col row).revealed_count = b.revealed_count + 1 := by
    rw [Board.revealBase, Board.revealCellAt_count, (b.b1_facts sample col row).2.2.1]
  rcases hbr with ⟨hm, he⟩ | ⟨hm, ha, he⟩ | ⟨hm, ha, he⟩
  · rw [he]
    have : (({ b.revealBase sample col row with game_over := true }).reveal_all_mines).revealed_count
        = (b.revealBase sample col row).revealed_count := rfl
    rw [this, hb2c]
    omega
  · rw [he, Board.check_win_count]
    have := floodLoop_count_mono ((b.revealBase sample col row).cells.length + 1)
      (b.revealBase sample col row) [(col, row)]
    omega
  · rw [he, Board.check_win_count, hb2c]
    omega

theorem Board.reveal_mutex_pres (b : Board) (sample : List (Int × Int)) (col row : Int)
    (h : ¬(b.game_over = true ∧ b.win = true)) :
    ¬((b.reveal sample col row).game_over = true ∧ (b.reveal sample col row).win = true) := by
  rcases b.reveal_cases sample col row with heq | ⟨hin, hgo, hwin, s1, hb1s, hrev1, hflag1, hbr⟩
  · rw [heq]; exact h
  have hb1win : (if b.mines_placed then b else b.place_mines sample col row).win = false := by
    rw [(b.b1_facts sample col row).2.1, hwin]
  have hb1go : (if b.mines_placed then b else b.place_mines sample col row).game_over = false := by
    rw [(b.b1_facts sample col row).1, hgo]
  rcases hbr with ⟨hm, he⟩ | ⟨hm, ha, he⟩ | ⟨hm, ha, he⟩
  · rw [he]
    rintro ⟨_, hw2⟩
    have hro := Board.reveal_all_mines_revealOnly
      ({ b.revealBase sample col row with game_over := true })
    rw [hro.2.2.2.2.2.1] at hw2
    have hwb : ({ b.revealBase sample col row with game_over := true }).win
        = (if b.mines_placed then b else b.place_mines sample col row).win := rfl
    rw [hwb, hb1win] at hw2
    simp at hw2
  · rw [he]
    rintro ⟨hg2, _⟩
    rw [Board.check_win_game_over] at hg2
    have hfl := floodLoop_revealOnly ((b.revealBase sample col row).cells.length + 1)
      (b.revealBase sample col row) [(col, row)]
    rw [hfl.2.2.2.2.1] at hg2
    have hgb : (b.revealBase sample col row).game_over
        = (if b.mines_placed then b else b.place_mines sample col row).game_over := rfl
    rw [hgb, hb1go] at hg2
    simp at hg2
  · rw [he]
    rintro ⟨hg2, _⟩
    rw [Board.check_win_game_over] at hg2
    have hgb : (b.revealBase sample col row).game_over
        = (if b.mines_placed then b else b.place_mines sample col row).game_over := rfl
    rw [hgb, hb1go] at hg2
    simp at hg2

/-! ## Invariants over all reachable states -/

theorem init_cells_state (cols rows mines : Int) :
    ∀ cell ∈ (Board.init cols rows mines).cells, cell.state = CellState.initial := by
  intro cell hmem
  rw [Board.init] at hmem
  rw [List.mem_flatMap] at hmem
  obtain ⟨r, _, hmem2⟩ := hmem
  rw [List.mem_map] at hmem2
  obtain ⟨c, _, hpc⟩ := hmem2
  rw [← hpc]

theorem init_countSync (cols rows mines : Int) : CountSync (Board.init cols rows mines) := by
  rw [CountSync, Board.revealedCells]
  have h0 : (Board.init cols rows mines).cells.countP (fun c => c.state.is_revealed) = 0 := by
    rw [List.countP_eq_zero]
    intro cell hmem
    rw [init_cells_state cols rows mines cell hmem]
    simp [CellState.initial]
  rw [h0]
  rfl

theorem reachable_countSync {a b : Board} (h : Reachable a b)
    (hbase : a.game_over = false → CountSync a) :
    b.game_over = false → CountSync b := by
  induction h with
  | refl => exact hbase
  | reveal sample col row h hs ih => exact Board.reveal_countSync_pres _ sample col row ih
  | toggle col row h ih =>
    intro hgo
    apply Board.toggle_flag_countSync
    apply ih
    rw [← (Board.toggle_flag_scalars _ col row).2.2.2.2.2.1]
    exact hgo

theorem reachable_mutex {a b : Board} (h : Reachable a b)
    (hbase : ¬(a.game_over = true ∧ a.win = true)) :
    ¬(b.game_over = true ∧ b.win = true) := by
  induction h with
  | refl => exact hbase
  | reveal sample col row h hs ih => exact Board.reveal_mutex_pres _ sample col row ih
  | toggle col row h ih =>
    rintro ⟨hg, hw⟩
    rw [(Board.toggle_flag_scalars _ col row).2.2.2.2.2.1] at hg
    rw [(Board.toggle_flag_scalars _ col row).2.2.2.2.2.2] at hw
    exact ih ⟨hg, hw⟩

end Minesweeper

namespace Minesweeper

/-! ## toggle_flag: no-op branches, flip, and involution -/

theorem Board.toggle_flag_oob (b : Board) (col row : Int)
    (h : b.is_inbounds col row = false) : b.toggle_flag col row = b := by
  rw [Board.toggle_flag]
  rw [if_pos]
  rw [h]
  rfl

theorem Board.toggle_flag_revealed (b : Board) (col row : Int) {s : CellState}
    (hs : b.stateAt col row = some s) (hrev : s.is_revealed = true) :
    b.toggle_flag col row = b := by
  rw [Board.toggle_flag]
  by_cases hg : (!b.is_inbounds col row || b.game_over || b.win) = true
  · rw [if_pos hg]
  · rw [if_neg hg, hs]
    dsimp only
    rw [if_pos hrev]

theorem Board.toggle_flag_update (b : Board) (col row : Int)
    (hin : b.is_inbounds col row = true) (hgo : b.game_over = false) (hwin : b.win = false)
    {s : CellState} (hs : b.stateAt col row = some s) (hrev : s.is_revealed = false) :
    b.toggle_flag col row = { b with cells := b.toggledCells col row } := by
  rw [Board.toggle_flag]
  rw [if_neg (by rw [hin, hgo, hwin]; simp)]
  rw [hs]
  dsimp only
  rw [if_neg (by rw [hrev]; simp)]
  rfl

theorem updateCell_flip_flip {cs : List Cell} {i : Nat} {c : Cell} (hc : cs[i]? = some c) :
    updateCell (updateCell cs i (fun st => { st with is_flagged := !st.is_flagged })) i
      (fun st => { st with is_flagged := !st.is_flagged }) = cs := by
  have h1 : (updateCell cs i (fun st => { st with is_flagged := !st.is_flagged }))[i]?
      = some { c with state := { c.state with is_flagged := !c.state.is_flagged } } :=
    getElem?_updateCell_self hc (fun st => { st with is_flagged := !st.is_flagged })
  rw [updateCell, h1]
  dsimp only
  rw [updateCell, hc]
  dsimp only
  rw [List.set_set]
  have hcc : ({ { c with state := { c.state with is_flagged := !c.state.is_flagged } } with
      state := { { c.state with is_flagged := !c.state.is_flagged } with
        is_flagged := !(!c.state.is_flagged) } } : Cell) = c := by
    cases c with
    | mk col row st =>
      cases st
      simp
  rw [hcc]
  exact set_getElem?_self hc

theorem Board.toggle_flag_twice (b : Board) (col row : Int)
    (hin : b.is_inbounds col row = true) (hgo : b.game_over = false) (hwin : b.win = false)
    {s : CellState} (hs : b.stateAt col row = some s) (hrev : s.is_revealed = false) :
    (b.toggle_flag col row).toggle_flag col row = b := by
  obtain ⟨c, hc, hcs⟩ := Board.stateAt_elim hs
  rw [b.toggle_flag_update col row hin hgo hwin hs hrev]
  have hin2 : ({ b with cells := b.toggledCells col row } : Board).is_inbounds col row = true :=
    hin
  have hc2 : ({ b with cells := b.toggledCells col row } : Board).cells[
      ({ b with cells := b.toggledCells col row } : Board).idx col row]?
      = some { c with state := { c.state with is_flagged := !c.state.is_flagged } } := by
    show (b.toggledCells col row)[b.idx col row]? = _
    rw [Board.toggledCells]
    exact getElem?_updateCell_self hc (fun st => { st with is_flagged := !st.is_flagged })
  have hs2 : ({ b with cells := b.toggledCells col row } : Board).stateAt col row
      = some { c.state with is_flagged := !c.state.is_flagged } :=
    Board.stateAt_of_cell hc2
  have hrev2 : ({ c.state with is_flagged := !c.state.is_flagged } : CellState).is_revealed
      = false := by
    show c.state.is_revealed = false
    rw [hcs]
    exact hrev
  rw [Board.toggle_flag_update _ col row hin2 hgo hwin hs2 hrev2]
  show ({ b with cells := ({ b with cells := b.toggledCells col row } :
    Board).toggledCells col row } : Board) = b
  have hfin : ({ b with cells := b.toggledCells col row } : Board).toggledCells col row
      = b.cells := by
    rw [Board.toggledCells, Board.toggledCells]
    show updateCell (updateCell b.cells (b.idx col row)
      (fun st => { st with is_flagged := !st.is_flagged })) (b.idx col row)
      (fun st => { st with is_flagged := !st.is_flagged }) = b.cells
    exact updateCell_flip_flip hc
  rw [hfin]

theorem Board.toggle_flag_flagQ (b : Board) (col row : Int)
    (hin : b.is_inbounds col row = true) (hgo : b.game_over = false) (hwin : b.win = false)
    {s : CellState} (hs : b.stateAt col row = some s) (hrev : s.is_revealed = false) :
    (b.toggle_flag col row).flagQ (col, row) = !s.is_flagged := by
  obtain ⟨c, hc, hcs⟩ := Board.stateAt_elim hs
  rw [b.toggle_flag_update col row hin hgo hwin hs hrev]
  rw [Board.flagQ]
  have hc2cell : ({ b with cells := b.toggledCells col row } : Board).cells[b.idx col row]?
      = some { c with state := { c.state with is_flagged := !c.state.is_flagged } } := by
    show (b.toggledCells col row)[b.idx col row]? = _
    rw [Board.toggledCells]
    exact getElem?_updateCell_self hc (fun st => { st with is_flagged := !st.is_flagged })
  have hc2 : ({ b with cells := b.toggledCells col row } : Board).stateAt col row
      = some { c.state with is_flagged := !c.state.is_flagged } := by
    rw [Board.stateAt, Board.cellAt]
    have hidx : ({ b with cells := b.toggledCells col row } : Board).idx col row
        = b.idx col row := rfl
    rw [hidx, hc2cell]
    rfl
  rw [hc2]
  rw [hcs]
  rfl

end Minesweeper

namespace Minesweeper

/-! ## Claim theorems -/

/-- C7: In every state reachable by Reveal and ToggleFlag commands from a
freshly constructed grid, `game_over` and `win` are never both true, and once
either is true every subsequent Reveal or ToggleFlag command leaves the entire
grid state unchanged (terminal states). -/
theorem C7_terminal_mutual_exclusion (cols rows mines : Int) (b : Board)
    (h : Reachable (Board.init cols rows mines) b) :
    ¬(b.game_over = true ∧ b.win = true) ∧
    ((b.game_over = true ∨ b.win = true) →
      ∀ (sample : List (Int × Int)) (col row : Int),
        b.reveal sample col row = b ∧ b.toggle_flag col row = b) := by
  constructor
  · apply reachable_mutex h
    rintro ⟨hg, _⟩
    simp [Board.init] at hg
  · intro ht sample col row
    exact ⟨b.reveal_terminal sample col row ht, b.toggle_flag_terminal col row ht⟩

theorem C7_witness :
    ¬((Board.init 9 9 10).game_over = true ∧ (Board.init 9 9 10).win = true) ∧
    (((Board.init 9 9 10).game_over = true ∨ (Board.init 9 9 10).win = true) →
      ∀ (sample : List (Int × Int)) (col row : Int),
        (Board.init 9 9 10).reveal sample col row = Board.init 9 9 10 ∧
        (Board.init 9 9 10).toggle_flag col row = Board.init 9 9 10) :=
  C7_terminal_mutual_exclusion 9 9 10 (Board.init 9 9 10) (Reachable.refl _)

/-- C2 (amended): in every reachable state in which `game_over` is false,
`revealed_count` equals the number of cells with `is_revealed == true`, and
`revealed_count` never decreases across a Reveal or ToggleFlag.  (After a
losing reveal the mine sweep reveals mines without incrementing the counter,
so the equality is only guaranteed while `game_over` is false.) -/
theorem C2_revealed_count_sync (cols rows mines : Int) (b : Board)
    (h : Reachable (Board.init cols rows mines) b) :
    (b.game_over = false → b.revealed_count = (b.revealedCells : Int)) ∧
    (∀ (sample : List (Int × Int)) (col row : Int),
      b.revealed_count ≤ (b.reveal sample col row).revealed_count ∧
      b.revealed_count ≤ (b.toggle_flag col row).revealed_count) := by
  constructor
  · exact reachable_countSync h (fun _ => init_countSync cols rows mines)
  · intro sample col row
    exact ⟨b.reveal_count_mono sample col row,
      le_of_eq ((Board.toggle_flag_scalars b col row).2.2.2.2.1).symm⟩

theorem C2_witness :
    ((Board.init 3 3 1).game_over = false →
      (Board.init 3 3 1).revealed_count = ((Board.init 3 3 1).revealedCells : Int)) ∧
    (∀ (sample : List (Int × Int)) (col row : Int),
      (Board.init 3 3 1).revealed_count ≤
        ((Board.init 3 3 1).reveal sample col row).revealed_count ∧
      (Board.init 3 3 1).revealed_count ≤
        ((Board.init 3 3 1).toggle_flag col row).revealed_count) :=
  C2_revealed_count_sync 3 3 1 (Board.init 3 3 1) (Reachable.refl _)

/-- A losing play on a 6x1 grid with 2 mines: first reveal at (0,0) with the
sample putting mines at (3,0) and (5,0), then flag the mine at (3,0), then
reveal the mine at (5,0). -/
def lossBoard : Board :=
  (((Board.init 6 1 2).reveal [(3, 0), (5, 0)] 0 0).toggle_flag 3 0).reveal [] 5 0

/-- The board one step before the loss: mines at (3,0) and (5,0), the mine at
(3,0) flagged, the mine at (5,0) still hidden. -/
def C10Board : Board :=
  ((Board.init 6 1 2).reveal [(3, 0), (5, 0)] 0 0).toggle_flag 3 0

/-- C2 does not hold as stated: `lossBoard` is reachable (all samples are
valid `random.sample` draws) yet its `revealed_count` is 4 while 5 cells have
`is_revealed == true` — `_reveal_all_mines` does not increment the counter. -/
theorem C2_counterexample :
    Reachable (Board.init 6 1 2) lossBoard ∧
    lossBoard.revealed_count = 4 ∧ (lossBoard.revealedCells : Int) = 5 ∧
    ¬ lossBoard.revealed_count = (lossBoard.revealedCells : Int) :=
  ⟨Reachable.reveal [] 5 0
    (Reachable.toggle 3 0
      (Reachable.reveal [(3, 0), (5, 0)] 0 0 (Reachable.refl _) (fun _ => by decide)))
    (fun hu => absurd hu (by decide)),
   by decide, by decide, by decide⟩

/-- C8: every invalid command is a silent no-op — Reveal out of bounds, Reveal
of a revealed cell, Reveal of a flagged cell, ToggleFlag out of bounds,
ToggleFlag on a revealed cell; otherwise ToggleFlag flips `is_flagged`, and
toggling the same unrevealed cell twice restores the whole board (hence
`is_flagged = false` when it started false). -/
theorem C8_invalid_commands_noops (b : Board) (sample : List (Int × Int)) (col row : Int) :
    (b.is_inbounds col row = false →
      b.reveal sample col row = b ∧ b.toggle_flag col row = b) ∧
    (∀ s : CellState, b.stateAt col row = some s → s.is_revealed = true →
      b.reveal sample col row = b ∧ b.toggle_flag col row = b) ∧
    (∀ s : CellState, b.stateAt col row = some s → s.is_flagged = true →
      b.reveal sample col row = b) ∧
    (b.is_inbounds col row = true → b.game_over = false → b.win = false →
      ∀ s : CellState, b.stateAt col row = some s → s.is_revealed = false →
        (b.toggle_flag col row).flagQ (col, row) = !s.is_flagged ∧
        (b.toggle_flag col row).toggle_flag col row = b ∧
        (s.is_flagged = false →
          ((b.toggle_flag col row).toggle_flag col row).flagQ (col, row) = false)) := by
  refine ⟨?_, ?_, ?_, ?_⟩
  · intro h
    exact ⟨b.reveal_oob sample col row h, b.toggle_flag_oob col row h⟩
  · intro s hs hrev
    exact ⟨b.reveal_noop_cell sample col row hs (Or.inl hrev),
      b.toggle_flag_revealed col row hs hrev⟩
  · intro s hs hflag
    exact b.reveal_noop_cell sample col row hs (Or.inr hflag)
  · intro hin hgo hwin s hs hrev
    refine ⟨b.toggle_flag_flagQ col row hin hgo hwin hs hrev,
      b.toggle_flag_twice col row hin hgo hwin hs hrev, ?_⟩
    intro hf
    rw [b.toggle_flag_twice col row hin hgo hwin hs hrev]
    rw [Board.flagQ]
    show ((b.stateAt col row).map CellState.is_flagged).getD false = false
    rw [hs]
    simpa using hf

theorem C8_witness :
    (((Board.init 2 1 0).is_inbounds 5 0 = false) ∧
     ((Board.init 2 1 0).reveal [] 5 0 = Board.init 2 1 0 ∧
      (Board.init 2 1 0).toggle_flag 5 0 = Board.init 2 1 0)) ∧
    (((Board.init 2 1 0).toggle_flag 0 0).flagQ (0, 0) = !CellState.initial.is_flagged ∧
     ((Board.init 2 1 0).toggle_flag 0 0).toggle_flag 0 0 = Board.init 2 1 0 ∧
     (CellState.initial.is_flagged = false →
       (((Board.init 2 1 0).toggle_flag 0 0).toggle_flag 0 0).flagQ (0, 0) = false)) :=
  ⟨⟨by decide, (C8_invalid_commands_noops (Board.init 2 1 0) [] 5 0).1 (by decide)⟩,
   (C8_invalid_commands_noops (Board.init 2 1 0) [] 0 0).2.2.2 (by decide) (by decide)
     (by decide) CellState.initial (by decide) (by decide)⟩

/-- C1: the claim fails on the code.  On a 1x1 grid with `mineCount = 1`
the only valid sample is empty (`actualMines = 0`), the single reveal
succeeds, every non-mine cell is revealed — yet `win` stays `false` because
`_check_win` compares `revealed_count` (1) against
`cols*rows - num_mines = 0` using the originally requested `num_mines`,
which is never replaced by the stored actual mine count. -/
theorem C1_win_uses_requested_count :
    (Board.init 1 1 1).ValidSample [] 0 0 ∧
    ((Board.init 1 1 1).reveal [] 0 0).win = false ∧
    ((Board.init 1 1 1).reveal [] 0 0).game_over = false ∧
    ((Board.init 1 1 1).reveal [] 0 0).revealed_count = 1 ∧
    ((Board.init 1 1 1).reveal [] 0 0).cells.countP (fun c => c.state.is_mine) = 0 ∧
    ((Board.init 1 1 1).reveal [] 0 0).revealedCells = 1 := by
  refine ⟨by decide, by decide, by decide, by decide, by decide, by decide⟩

/-- C6: the claim fails on the code.  `Board.__init__` performs no validation:
constructing with `cols = 0` (or negative dimensions) silently yields a board
with an empty cell list on which every command is an inert no-op, instead of
failing with an invalid-configuration error. -/
theorem C6_degenerate_construction_is_silent :
    (Board.init 0 5 3).cells.length = 0 ∧
    (Board.init 0 5 3).reveal [] 0 0 = Board.init 0 5 3 ∧
    (Board.init 0 5 3).toggle_flag 0 0 = Board.init 0 5 3 ∧
    (Board.init (-3) 4 2).cells.length = 0 ∧
    (Board.init 7 0 3).cells.length = 0 := by
  refine ⟨by decide, by decide, by decide, by decide, by decide⟩

end Minesweeper

namespace Minesweeper

/-! ## The two passes of place_mines as named folds -/

/-- One mine-marking step of `place_mines`. -/
def mineStep (b : Board) (cs : List Cell) (p : Int × Int) : List Cell :=
  updateCell cs (b.idx p.1 p.2) (fun s => { s with is_mine := true })

/-- The mine-marking pass of `place_mines`. -/
def mineFold (b : Board) (sample : List (Int × Int)) (cs : List Cell) : List Cell :=
  sample.foldl (mineStep b) cs

/-- One adjacency-computation step of `place_mines`. -/
def adjStep (b : Board) (cs : List Cell) (p : Int × Int) : List Cell :=
  match cs[b.idx p.1 p.2]? with
  | some cell =>
      if cell.state.is_mine then cs
      else cs.set (b.idx p.1 p.2)
        { cell with state := { cell.state with
            adjacent := (((b.neighbors p.1 p.2).filter (fun q =>
              ((cs[b.idx q.1 q.2]?).map (fun c => c.state.is_mine)).getD false)).length : Int) } }
  | none => cs

/-- The adjacency pass of `place_mines`. -/
def adjFold (b : Board) (L : List (Int × Int)) (cs : List Cell) : List Cell :=
  L.foldl (adjStep b) cs

theorem Board.place_mines_eq (b : Board) (sample : List (Int × Int)) (sc sr : Int) :
    b.place_mines sample sc sr =
      { b with cells := adjFold b b.all_positions (mineFold b sample b.cells),
               mines_placed := true } := rfl

theorem mineStep_length (b : Board) (cs : List Cell) (p : Int × Int) :
    (mineStep b cs p).length = cs.length := length_updateCell _ _ _

theorem mineFold_length (b : Board) (sample : List (Int × Int)) :
    ∀ cs : List Cell, (mineFold b sample cs).length = cs.length := by
  induction sample with
  | nil => intro cs; rfl
  | cons p rest ih =>
    intro cs
    show (mineFold b rest (mineStep b cs p)).length = cs.length
    rw [ih, mineStep_length]

/-- Pointwise characterization of the mine-marking pass: a flat index hit by
the sample becomes a mine; every other index keeps its `is_mine` bit. -/
theorem mineFold_mine (b : Board) : ∀ (sample : List (Int × Int)) (cs : List Cell),
    (∀ p ∈ sample, b.idx p.1 p.2 < cs.length) →
    List.Pairwise (fun p q => b.idx p.1 p.2 ≠ b.idx q.1 q.2) sample →
    ∀ j : Nat, ((mineFold b sample cs)[j]?.map (fun c => c.state.is_mine))
      = if ∃ p ∈ sample, b.idx p.1 p.2 = j then some true
        else (cs[j]?.map (fun c => c.state.is_mine)) := by
  intro sample
  induction sample with
  | nil =>
    intro cs _ _ j
    rw [if_neg (by simp)]
    rfl
  | cons p rest ih =>
    intro cs hb hpw j
    obtain ⟨hp1, hpw2⟩ := List.pairwise_cons.mp hpw
    have hlt : b.idx p.1 p.2 < cs.length := hb p (List.mem_cons_self _ _)
    obtain ⟨c, hc⟩ : ∃ c, cs[b.idx p.1 p.2]? = some c := by
      cases hx : cs[b.idx p.1 p.2]? with
      | none =>
        rw [List.getElem?_eq_none_iff] at hx
        omega
      | some c => exact ⟨c, rfl⟩
    have hb2 : ∀ q ∈ rest, b.idx q.1 q.2 < (mineStep b cs p).length := by
      intro q hq
      rw [mineStep_length]
      exact hb q (List.mem_cons_of_mem _ hq)
    have ihr := ih (mineStep b cs p) hb2 hpw2 j
    show ((mineFold b rest (mineStep b cs p))[j]?.map (fun c => c.state.is_mine)) = _
    rw [ihr]
    by_cases h1 : ∃ q ∈ rest, b.idx q.1 q.2 = j
    · rw [if_pos h1, if_pos ?side]
      case side =>
        obtain ⟨q, hq1, hq2⟩ := h1
        exact ⟨q, List.mem_cons_of_mem _ hq1, hq2⟩
    · rw [if_neg h1]
      by_cases h2 : b.idx p.1 p.2 = j
      · rw [if_pos ⟨p, List.mem_cons_self _ _, h2⟩]
        rw [mineStep, ← h2, getElem?_updateCell_self hc]
        rfl
      · rw [if_neg ?side]
        case side =>
          rintro ⟨q, hq1, hq2⟩
          rcases List.mem_cons.mp hq1 with rfl | hq1
          · exact h2 hq2
          · exact h1 ⟨q, hq1, hq2⟩
        rw [mineStep, getElem?_updateCell_ne (fun he => h2 he.symm)]

/-- The mine-marking pass adds exactly `sample.length` mines when it starts
from a board where the sampled indices are mine-free. -/
theorem mineFold_count (b : Board) : ∀ (sample : List (Int × Int)) (cs : List Cell),
    (∀ p ∈ sample, ∃ c : Cell, cs[b.idx p.1 p.2]? = some c ∧ c.state.is_mine = false) →
    List.Pairwise (fun p q => b.idx p.1 p.2 ≠ b.idx q.1 q.2) sample →
    (mineFold b sample cs).countP (fun c => c.state.is_mine)
      = cs.countP (fun c => c.state.is_mine) + sample.length := by
  intro sample
  induction sample with
  | nil => intro cs _ _; rfl
  | cons p rest ih =>
    intro cs hb hpw
    obtain ⟨hp1, hpw2⟩ := List.pairwise_cons.mp hpw
    obtain ⟨c, hc, hcm⟩ := hb p (List.mem_cons_self _ _)
    have hb2 : ∀ q ∈ rest, ∃ c : Cell,
        (mineStep b cs p)[b.idx q.1 q.2]? = some c ∧ c.state.is_mine = false := by
      intro q hq
      obtain ⟨cq, hcq, hcqm⟩ := hb q (List.mem_cons_of_mem _ hq)
      refine ⟨cq, ?_, hcqm⟩
      rw [mineStep, getElem?_updateCell_ne (hp1 q hq).symm]
      exact hcq
    show (mineFold b rest (mineStep b cs p)).countP _ = _
    rw [ih (mineStep b cs p) hb2 hpw2]
    rw [mineStep, countP_updateCell hc]
    simp [hcm, List.length_cons]
    omega

end Minesweeper

namespace Minesweeper

/-! ## Adjacency pass lemmas -/

theorem Board.mineQ_eq_cells (b : Board) (p : Int × Int) :
    b.mineQ p = ((b.cells[b.idx p.1 p.2]?).map (fun c => c.state.is_mine)).getD false := by
  rw [Board.mineQ, Board.stateAt, Board.cellAt]
  cases b.cells[b.idx p.1 p.2]? <;> rfl

theorem Board.revQ_eq_cells (b : Board) (p : Int × Int) :
    b.revQ p = ((b.cells[b.idx p.1 p.2]?).map (fun c => c.state.is_revealed)).getD false := by
  rw [Board.revQ, Board.stateAt, Board.cellAt]
  cases b.cells[b.idx p.1 p.2]? <;> rfl

theorem Board.flagQ_eq_cells (b : Board) (p : Int × Int) :
    b.flagQ p = ((b.cells[b.idx p.1 p.2]?).map (fun c => c.state.is_flagged)).getD false := by
  rw [Board.flagQ, Board.stateAt, Board.cellAt]
  cases b.cells[b.idx p.1 p.2]? <;> rfl

theorem Board.adjQ_eq_cells (b : Board) (p : Int × Int) :
    b.adjQ p = ((b.cells[b.idx p.1 p.2]?).map (fun c => c.state.adjacent)).getD 0 := by
  rw [Board.adjQ, Board.stateAt, Board.cellAt]
  cases b.cells[b.idx p.1 p.2]? <;> rfl

theorem adjStep_length (b : Board) (cs : List Cell) (p : Int × Int) :
    (adjStep b cs p).length = cs.length := by
  rw [adjStep]
  cases hx : cs[b.idx p.1 p.2]? with
  | none => rfl
  | some cell =>
    dsimp only
    by_cases hm : cell.state.is_mine = true
    · rw [if_pos hm]
    · rw [if_neg hm]
      exact List.length_set _ _ _

theorem adjStep_mine (b : Board) (cs : List Cell) (p : Int × Int) (j : Nat) :
    ((adjStep b cs p)[j]?.map (fun c => c.state.is_mine))
      = cs[j]?.map (fun c => c.state.is_mine) := by
  rw [adjStep]
  cases hx : cs[b.idx p.1 p.2]? with
  | none => rfl
  | some cell =>
    dsimp only
    by_cases hm : cell.state.is_mine = true
    · rw [if_pos hm]
    · rw [if_neg hm]
      by_cases hj : j = b.idx p.1 p.2
      · subst hj
        obtain ⟨hlt, _⟩ := List.getElem?_eq_some_iff.mp hx
        rw [List.getElem?_set_self hlt, hx]
        rfl
      · rw [List.getElem?_set_ne (fun he => hj he.symm)]

theorem adjStep_untouched (b : Board) (cs : List Cell) (p : Int × Int) (j : Nat)
    (h : b.idx p.1 p.2 ≠ j) : (adjStep b cs p)[j]? = cs[j]? := by
  rw [adjStep]
  cases hx : cs[b.idx p.1 p.2]? with
  | none => rfl
  | some cell =>
    dsimp only
    by_cases hm : cell.state.is_mine = true
    · rw [if_pos hm]
    · rw [if_neg hm]
      exact List.getElem?_set_ne h

theorem adjFold_cons (b : Board) (p : Int × Int) (L : List (Int × Int)) (cs : List Cell) :
    adjFold b (p :: L) cs = adjFold b L (adjStep b cs p) := by
  rw [adjFold, adjFold, List.foldl_cons]

theorem adjFold_mine (b : Board) : ∀ (L : List (Int × Int)) (cs : List Cell) (j : Nat),
    ((adjFold b L cs)[j]?.map (fun c => c.state.is_mine))
      = cs[j]?.map (fun c => c.state.is_mine) := by
  intro L
  induction L with
  | nil => intro cs j; rfl
  | cons p rest ih =>
    intro cs j
    rw [adjFold_cons, ih, adjStep_mine]

theorem adjFold_untouched (b : Board) : ∀ (L : List (Int × Int)) (cs : List Cell) (j : Nat),
    (∀ q ∈ L, b.idx q.1 q.2 ≠ j) → (adjFold b L cs)[j]? = cs[j]? := by
  intro L
  induction L with
  | nil => intro cs j _; rfl
  | cons p rest ih =>
    intro cs j h
    rw [adjFold_cons, ih _ _ (fun q hq => h q (List.mem_cons_of_mem _ hq)),
      adjStep_untouched _ _ _ _ (h p (List.mem_cons_self _ _))]

theorem adjFold_length (b : Board) : ∀ (L : List (Int × Int)) (cs : List Cell),
    (adjFold b L cs).length = cs.length := by
  intro L
  induction L with
  | nil => intro cs; rfl
  | cons p rest ih =>
    intro cs
    rw [adjFold_cons, ih, adjStep_length]

/-- Full correctness of the adjacency pass on a list of positions with
pairwise-distinct flat indices: mine cells are left untouched, and every
non-mine listed cell gets `adjacent` set to the number of its neighbors
whose final `is_mine` bit is set. -/
theorem adjFold_spec (b : Board) : ∀ (L : List (Int × Int)) (cs : List Cell),
    List.Pairwise (fun p q => b.idx p.1 p.2 ≠ b.idx q.1 q.2) L →
    ∀ p ∈ L, ∀ c : Cell, cs[b.idx p.1 p.2]? = some c →
      (c.state.is_mine = true → (adjFold b L cs)[b.idx p.1 p.2]? = some c) ∧
      (c.state.is_mine = false → (adjFold b L cs)[b.idx p.1 p.2]? = some
        { c with state := { c.state with
            adjacent := (((b.neighbors p.1 p.2).filter (fun q =>
              (((adjFold b L cs)[b.idx q.1 q.2]?).map
                (fun c => c.state.is_mine)).getD false)).length : Int) } }) := by
  intro L
  induction L with
  | nil => intro cs _ p hp; exact absurd hp (by simp)
  | cons p0 rest ih =>
    intro cs hpw p hp c hc
    obtain ⟨hp1, hpw2⟩ := List.pairwise_cons.mp hpw
    rw [adjFold_cons]
    have hpred : ∀ q ∈ b.neighbors p.1 p.2,
        ((((adjFold b rest (adjStep b cs p0))[b.idx q.1 q.2]?).map
          (fun c => c.state.is_mine)).getD false)
        = (((cs[b.idx q.1 q.2]?).map (fun c => c.state.is_mine)).getD false) := by
      intro q _
      rw [adjFold_mine, adjStep_mine]
    rcases List.mem_cons.mp hp with rfl | hp2
    · have hunt : (adjFold b rest (adjStep b cs p))[b.idx p.1 p.2]?
          = (adjStep b cs p)[b.idx p.1 p.2]? :=
        adjFold_untouched b rest _ _ (fun q hq => (hp1 q hq).symm)
      constructor
      · intro hm
        rw [hunt, adjStep, hc]
        dsimp only
        rw [if_pos hm]
        exact hc
      · intro hm
        have hfc : ((b.neighbors p.1 p.2).filter (fun q =>
            (((adjFold b rest (adjStep b cs p))[b.idx q.1 q.2]?).map
              (fun c => c.state.is_mine)).getD false))
            = ((b.neighbors p.1 p.2).filter (fun q =>
              ((cs[b.idx q.1 q.2]?).map (fun c => c.state.is_mine)).getD false)) :=
          List.filter_congr (fun q hq => by rw [hpred q hq])
        rw [hfc, hunt, adjStep, hc]
        dsimp only
        rw [if_neg (by rw [hm]; simp)]
        obtain ⟨hlt, _⟩ := List.getElem?_eq_some_iff.mp hc
        rw [List.getElem?_set_self hlt]
    · have hc2 : (adjStep b cs p0)[b.idx p.1 p.2]? = some c := by
        rw [adjStep_untouched _ _ _ _ (hp1 p hp2)]
        exact hc
      exact ih (adjStep b cs p0) hpw2 p hp2 c hc2

end Minesweeper

namespace Minesweeper

/-! ## place_mines: mine layout characterization and adjacency correctness -/

theorem Board.check_win_mineQ (b : Board) (p : Int × Int) :
    b.check_win.mineQ p = b.mineQ p := by
  rw [Board.check_win]
  by_cases h : b.revealed_count = b.cols * b.rows - b.num_mines ∧ b.game_over = false
  · rw [if_pos h]
    rfl
  · rw [if_neg h]

theorem Board.check_win_adjQ (b : Board) (p : Int × Int) :
    b.check_win.adjQ p = b.adjQ p := by
  rw [Board.check_win]
  by_cases h : b.revealed_count = b.cols * b.rows - b.num_mines ∧ b.game_over = false
  · rw [if_pos h]
    rfl
  · rw [if_neg h]

theorem Board.place_pairwise (b : Board) {l : List (Int × Int)} (hnd : l.Nodup)
    (hin : ∀ p ∈ l, b.is_inbounds p.1 p.2 = true) :
    List.Pairwise (fun p q => b.idx p.1 p.2 ≠ b.idx q.1 q.2) l := by
  apply List.Pairwise.imp_of_mem ?_ hnd
  intro p q hp hq hne he
  exact hne (b.idx_inj (hin p hp) (hin q hq) he)

theorem Board.place_mines_mine_char (b : Board) (sample : List (Int × Int)) (sc sr : Int)
    (hWF : b.WF) (hpool : ∀ p ∈ sample, p ∈ b.pool sc sr) (hnd : sample.Nodup) :
    ∀ j : Nat, ((b.place_mines sample sc sr).cells[j]?.map (fun c => c.state.is_mine))
      = if ∃ p ∈ sample, b.idx p.1 p.2 = j then some true
        else (b.cells[j]?.map (fun c => c.state.is_mine)) := by
  intro j
  rw [Board.place_mines_eq]
  show ((adjFold b b.all_positions (mineFold b sample b.cells))[j]?.map
    (fun c => c.state.is_mine)) = _
  rw [adjFold_mine]
  exact mineFold_mine b sample b.cells
    (fun p hp => b.idx_lt hWF (b.pool_inbounds sc sr (hpool p hp)))
    (b.place_pairwise hnd (fun p hp => b.pool_inbounds sc sr (hpool p hp))) j

theorem Board.place_mines_mineQ_iff (b : Board) (sample : List (Int × Int)) (sc sr : Int)
    (hWF : b.WF) (hmines : ∀ c ∈ b.cells, c.state.is_mine = false)
    (hpool : ∀ p ∈ sample, p ∈ b.pool sc sr) (hnd : sample.Nodup) :
    ∀ p : Int × Int, b.is_inbounds p.1 p.2 = true →
      ((b.place_mines sample sc sr).mineQ p = true ↔ p ∈ sample) := by
  intro p hinp
  rw [Board.mineQ_eq_cells,
    Board.idx_congr (b.place_mines_scalars sample sc sr).1 p.1 p.2,
    b.place_mines_mine_char sample sc sr hWF hpool hnd]
  by_cases hex : ∃ q ∈ sample, b.idx q.1 q.2 = b.idx p.1 p.2
  · rw [if_pos hex]
    constructor
    · intro _
      obtain ⟨q, hq, he⟩ := hex
      have hqp : q = p := b.idx_inj (b.pool_inbounds sc sr (hpool q hq)) hinp he
      rw [← hqp]
      exact hq
    · intro _
      rfl
  · rw [if_neg hex]
    have hfalse : ((b.cells[b.idx p.1 p.2]?).map (fun c => c.state.is_mine)).getD false
        = false := by
      cases hx : b.cells[b.idx p.1 p.2]? with
      | none => rfl
      | some c =>
        obtain ⟨hlt, hgl⟩ := List.getElem?_eq_some_iff.mp hx
        have hmem : c ∈ b.cells := by
          rw [← hgl]
          exact List.getElem_mem _
        simpa using hmines c hmem
    rw [hfalse]
    constructor
    · intro h
      exact absurd h (by simp)
    · intro hp
      exact absurd ⟨p, hp, rfl⟩ hex

theorem Board.place_mines_mine_count (b : Board) (sample : List (Int × Int)) (sc sr : Int)
    (hWF : b.WF) (hmines : ∀ c ∈ b.cells, c.state.is_mine = false)
    (hpool : ∀ p ∈ sample, p ∈ b.pool sc sr) (hnd : sample.Nodup) :
    (b.place_mines sample sc sr).cells.countP (fun c => c.state.is_mine) = sample.length := by
  rw [Board.place_mines_eq]
  show (adjFold b b.all_positions (mineFold b sample b.cells)).countP
    (fun c => c.state.is_mine) = _
  have h1 : (adjFold b b.all_positions (mineFold b sample b.cells)).countP
      (fun c => c.state.is_mine)
      = (mineFold b sample b.cells).countP (fun c => c.state.is_mine) :=
    countP_congr_pointwise _ _ _ (adjFold_length b _ _) (fun j => adjFold_mine b _ _ j)
  rw [h1]
  rw [mineFold_count b sample b.cells ?pre ?pw]
  case pre =>
    intro p hp
    have hlt := b.idx_lt hWF (b.pool_inbounds sc sr (hpool p hp))
    obtain ⟨c, hc⟩ : ∃ c, b.cells[b.idx p.1 p.2]? = some c := by
      cases hx : b.cells[b.idx p.1 p.2]? with
      | none =>
        rw [List.getElem?_eq_none_iff] at hx
        omega
      | some c => exact ⟨c, rfl⟩
    refine ⟨c, hc, ?_⟩
    obtain ⟨hlt2, hgl⟩ := List.getElem?_eq_some_iff.mp hc
    apply hmines
    rw [← hgl]
    exact List.getElem_mem _
  case pw =>
    exact b.place_pairwise hnd (fun p hp => b.pool_inbounds sc sr (hpool p hp))
  have h0 : b.cells.countP (fun c => c.state.is_mine) = 0 :=
    List.countP_eq_zero.mpr (fun c hc => by simp [hmines c hc])
  rw [h0]
  omega

theorem Board.place_mines_adjQ (b : Board) (sample : List (Int × Int)) (sc sr : Int)
    (hWF : b.WF) :
    ∀ p : Int × Int, b.is_inbounds p.1 p.2 = true →
      (b.place_mines sample sc sr).mineQ p = false →
      (b.place_mines sample sc sr).adjQ p
        = (((b.neighbors p.1 p.2).countP (fun q => (b.place_mines sample sc sr).mineQ q)) : Int) := by
  intro p hinp hm
  have hpw : List.Pairwise (fun p q => b.idx p.1 p.2 ≠ b.idx q.1 q.2) b.all_positions :=
    b.place_pairwise b.all_positions_nodup (fun q hq => (b.mem_all_positions q).mp hq)
  have hmem : p ∈ b.all_positions := (b.mem_all_positions p).mpr hinp
  have hlt : b.idx p.1 p.2 < (mineFold b sample b.cells).length := by
    rw [mineFold_length]
    exact b.idx_lt hWF hinp
  obtain ⟨c, hc⟩ : ∃ c, (mineFold b sample b.cells)[b.idx p.1 p.2]? = some c := by
    cases hx : (mineFold b sample b.cells)[b.idx p.1 p.2]? with
    | none =>
      rw [List.getElem?_eq_none_iff] at hx
      omega
    | some c => exact ⟨c, rfl⟩
  have hcm : c.state.is_mine = false := by
    have h1 := Board.mineQ_eq_cells (b.place_mines sample sc sr) p
    rw [Board.idx_congr (b.place_mines_scalars sample sc sr).1 p.1 p.2] at h1
    rw [hm] at h1
    have h2 : (b.place_mines sample sc sr).cells[b.idx p.1 p.2]?.map
        (fun c => c.state.is_mine) = some c.state.is_mine := by
      rw [Board.place_mines_eq]
      show ((adjFold b b.all_positions (mineFold b sample b.cells))[b.idx p.1 p.2]?.map
        (fun c => c.state.is_mine)) = _
      rw [adjFold_mine, hc]
      rfl
    rw [h2] at h1
    simpa using h1.symm
  have hspec := (adjFold_spec b b.all_positions (mineFold b sample b.cells) hpw p hmem c hc).2 hcm
  have hcells : (b.place_mines sample sc sr).cells[b.idx p.1 p.2]? = some
      { c with state := { c.state with
          adjacent := (((b.neighbors p.1 p.2).filter (fun q =>
            (((adjFold b b.all_positions (mineFold b sample b.cells))[b.idx q.1 q.2]?).map
              (fun c => c.state.is_mine)).getD false)).length : Int) } } := by
    rw [Board.place_mines_eq]
    exact hspec
  have hpred : ∀ q ∈ b.neighbors p.1 p.2,
      ((((adjFold b b.all_positions (mineFold b sample b.cells))[b.idx q.1 q.2]?).map
        (fun c => c.state.is_mine)).getD false)
      = (b.place_mines sample sc sr).mineQ q := by
    intro q _
    rw [Board.mineQ_eq_cells, Board.idx_congr (b.place_mines_scalars sample sc sr).1 q.1 q.2]
    rw [Board.place_mines_eq]
  have hfc : ((b.neighbors p.1 p.2).filter (fun q =>
      (((adjFold b b.all_positions (mineFold b sample b.cells))[b.idx q.1 q.2]?).map
        (fun c => c.state.is_mine)).getD false))
      = ((b.neighbors p.1 p.2).filter (fun q => (b.place_mines sample sc sr).mineQ q)) :=
    List.filter_congr (fun q hq => by rw [hpred q hq])
  rw [Board.adjQ_eq_cells, Board.idx_congr (b.place_mines_scalars sample sc sr).1 p.1 p.2,
    hcells]
  show (({ c with state := { c.state with adjacent := _ } } : Cell).state.adjacent : Int) = _
  rw [List.countP_eq_length_filter, ← hfc]

end Minesweeper

namespace Minesweeper

/-! ## Mine layout and adjacency are immutable after placement -/

theorem cellsMatchFlag_minemap {o o' : Option Cell} (h : cellsMatchFlag o o') :
    o.map (fun c => c.state.is_mine) = o'.map (fun c => c.state.is_mine) := by
  cases o <;> cases o' <;> simp_all [cellsMatchFlag]

theorem cellsMatchFlag_adjmap {o o' : Option Cell} (h : cellsMatchFlag o o') :
    o.map (fun c => c.state.adjacent) = o'.map (fun c => c.state.adjacent) := by
  cases o <;> cases o' <;> simp_all [cellsMatchFlag]

theorem Board.toggle_keeps_mines (b : Board) (col row : Int) :
    (b.toggle_flag col row).mines_placed = b.mines_placed ∧
    (∀ p : Int × Int, (b.toggle_flag col row).mineQ p = b.mineQ p) ∧
    (∀ p : Int × Int, (b.toggle_flag col row).adjQ p = b.adjQ p) := by
  refine ⟨(b.toggle_flag_scalars col row).2.2.2.1, ?_, ?_⟩
  · intro p
    rw [Board.mineQ_eq_cells, Board.mineQ_eq_cells,
      Board.idx_congr (b.toggle_flag_scalars col row).1 p.1 p.2,
      ← cellsMatchFlag_minemap ((b.toggle_flag_match col row).2 (b.idx p.1 p.2))]
  · intro p
    rw [Board.adjQ_eq_cells, Board.adjQ_eq_cells,
      Board.idx_congr (b.toggle_flag_scalars col row).1 p.1 p.2,
      ← cellsMatchFlag_adjmap ((b.toggle_flag_match col row).2 (b.idx p.1 p.2))]

theorem Board.reveal_keeps_mines (b : Board) (sample : List (Int × Int)) (col row : Int)
    (hp : b.mines_placed = true) :
    (b.reveal sample col row).mines_placed = true ∧
    (∀ p : Int × Int, (b.reveal sample col row).mineQ p = b.mineQ p) ∧
    (∀ p : Int × Int, (b.reveal sample col row).adjQ p = b.adjQ p) := by
  rcases b.reveal_cases sample col row with heq | ⟨hin, hgo, hwin, s1, hb1s, hrev1, hflag1, hbr⟩
  · rw [heq]
    exact ⟨hp, fun p => rfl, fun p => rfl⟩
  have hb1eq : (if b.mines_placed then b else b.place_mines sample col row) = b := if_pos hp
  rcases hbr with ⟨hm, he⟩ | ⟨hm, ha, he⟩ | ⟨hm, ha, he⟩
  · rw [he, Board.revealBase, hb1eq]
    refine ⟨?_, ?_, ?_⟩
    · rw [(Board.reveal_all_mines_revealOnly _).2.2.2.1]
      exact hp
    · intro p
      rw [(Board.reveal_all_mines_revealOnly _).mineQ_eq p]
      have h2 : ({ b.revealCellAt col row with game_over := true } : Board).mineQ p
          = (b.revealCellAt col row).mineQ p := rfl
      rw [h2, (b.revealCellAt_revealOnly col row).mineQ_eq p]
    · intro p
      rw [(Board.reveal_all_mines_revealOnly _).adjQ_eq p]
      have h2 : ({ b.revealCellAt col row with game_over := true } : Board).adjQ p
          = (b.revealCellAt col row).adjQ p := rfl
      rw [h2, (b.revealCellAt_revealOnly col row).adjQ_eq p]
  · rw [he, Board.revealBase, hb1eq]
    refine ⟨?_, ?_, ?_⟩
    · rw [(Board.check_win_scalars _).2.2.2, (floodLoop_revealOnly _ _ _).2.2.2.1]
      exact hp
    · intro p
      rw [Board.check_win_mineQ, (floodLoop_revealOnly _ _ _).mineQ_eq p,
        (b.revealCellAt_revealOnly col row).mineQ_eq p]
    · intro p
      rw [Board.check_win_adjQ, (floodLoop_revealOnly _ _ _).adjQ_eq p,
        (b.revealCellAt_revealOnly col row).adjQ_eq p]
  · rw [he, Board.revealBase, hb1eq]
    refine ⟨?_, ?_, ?_⟩
    · rw [(Board.check_win_scalars _).2.2.2]
      exact hp
    · intro p
      rw [Board.check_win_mineQ, (b.revealCellAt_revealOnly col row).mineQ_eq p]
    · intro p
      rw [Board.check_win_adjQ, (b.revealCellAt_revealOnly col row).adjQ_eq p]

/-- C3: after placement triggered by a first reveal at in-bounds coordinates,
the clicked cell and all its in-bounds neighbors are mine-free, exactly
`min(mineCount, |pool|)` cells are mines (one per sampled position, no
position twice), and placement happens at most once — once `mines_placed`
is set, no reveal ever changes the mine layout again. -/
theorem C3_first_click_safe_placement (b : Board) (sample : List (Int × Int))
    (safe_col safe_row : Int) (hWF : b.WF)
    (hfresh : ∀ c ∈ b.cells, c.state.is_mine = false)
    (hin : b.is_inbounds safe_col safe_row = true)
    (hvs : b.ValidSample sample safe_col safe_row) :
    (∀ p : Int × Int, (p = (safe_col, safe_row) ∨ p ∈ b.neighbors safe_col safe_row) →
      (b.place_mines sample safe_col safe_row).mineQ p = false) ∧
    ((b.place_mines sample safe_col safe_row).cells.countP (fun c => c.state.is_mine)
      = sample.length) ∧
    ((sample.length : Int) = min b.num_mines ((b.pool safe_col safe_row).length : Int)) ∧
    (∀ p : Int × Int, b.is_inbounds p.1 p.2 = true →
      ((b.place_mines sample safe_col safe_row).mineQ p = true ↔ p ∈ sample)) ∧
    (b.place_mines sample safe_col safe_row).mines_placed = true ∧
    (∀ (bb : Board) (sample2 : List (Int × Int)) (c r : Int), bb.mines_placed = true →
      ((bb.reveal sample2 c r).mines_placed = true ∧
        ∀ p : Int × Int, (bb.reveal sample2 c r).mineQ p = bb.mineQ p)) := by
  obtain ⟨hnd, hpool, hlen⟩ := hvs
  refine ⟨?_, ?_, hlen, ?_, (b.place_mines_scalars sample safe_col safe_row).2.2.2.2.2.2, ?_⟩
  · intro p hpf
    have hinp : b.is_inbounds p.1 p.2 = true := by
      rcases hpf with rfl | hpn
      · exact hin
      · exact b.mem_neighbors hpn
    have hns : p ∉ sample := by
      intro hmem
      apply b.pool_disjoint_forbidden safe_col safe_row (hpool p hmem)
      rw [Board.forbidden]
      rcases hpf with rfl | hpn
      · exact List.mem_cons_self _ _
      · exact List.mem_cons_of_mem _ hpn
    have hiff := b.place_mines_mineQ_iff sample safe_col safe_row hWF hfresh hpool hnd p hinp
    cases hmq : (b.place_mines sample safe_col safe_row).mineQ p with
    | false => rfl
    | true => exact absurd (hiff.mp hmq) hns
  · exact b.place_mines_mine_count sample safe_col safe_row hWF hfresh hpool hnd
  · exact b.place_mines_mineQ_iff sample safe_col safe_row hWF hfresh hpool hnd
  · intro bb sample2 c r hp
    obtain ⟨h1, h2, _⟩ := bb.reveal_keeps_mines sample2 c r hp
    exact ⟨h1, h2⟩

/-- C5: after placement, every in-bounds non-mine cell has `adjacent` equal
to the exact number of its in-bounds 8-neighbors that are mines, a value in
`[0, 8]`, and neither the mine layout nor the adjacency values change under
any later reveal or flag toggle. -/
theorem C5_adjacency_counts (b : Board) (sample : List (Int × Int)) (sc sr : Int)
    (hWF : b.WF) :
    (∀ p : Int × Int, b.is_inbounds p.1 p.2 = true →
      (b.place_mines sample sc sr).mineQ p = false →
      ((b.place_mines sample sc sr).adjQ p
        = (((b.neighbors p.1 p.2).countP (fun q => (b.place_mines sample sc sr).mineQ q)) : Int) ∧
       0 ≤ (b.place_mines sample sc sr).adjQ p ∧
       (b.place_mines sample sc sr).adjQ p ≤ 8)) ∧
    (∀ (bb : Board) (sample2 : List (Int × Int)) (c r : Int), bb.mines_placed = true →
      ∀ p : Int × Int, (bb.reveal sample2 c r).adjQ p = bb.adjQ p ∧
        (bb.toggle_flag c r).adjQ p = bb.adjQ p ∧
        (bb.toggle_flag c r).mineQ p = bb.mineQ p) := by
  constructor
  · intro p hinp hm
    have hadj := b.place_mines_adjQ sample sc sr hWF p hinp hm
    refine ⟨hadj, ?_, ?_⟩
    · rw [hadj]
      exact Int.natCast_nonneg _
    · rw [hadj]
      have h8 : (b.neighbors p.1 p.2).countP (fun q => (b.place_mines sample sc sr).mineQ q)
          ≤ 8 := le_trans (List.countP_le_length _) (b.neighbors_length_le p.1 p.2)
      exact_mod_cast h8
  · intro bb sample2 c r hp p
    exact ⟨(bb.reveal_keeps_mines sample2 c r hp).2.2 p, (bb.toggle_keeps_mines c r).2.2 p,
      (bb.toggle_keeps_mines c r).2.1 p⟩

end Minesweeper

namespace Minesweeper

/-- The spec's scenario grid: 9x9 with 10 requested mines. -/
def demoBoard9 : Board := Board.init 9 9 10

/-- A concrete valid `random.sample` draw for a first click at (4,4): the
first ten pool positions. -/
def demoSample9 : List (Int × Int) := (demoBoard9.pool 4 4).take 10

theorem C3_witness :
    (∀ p : Int × Int, (p = (4, 4) ∨ p ∈ demoBoard9.neighbors 4 4) →
      (demoBoard9.place_mines demoSample9 4 4).mineQ p = false) ∧
    ((demoBoard9.place_mines demoSample9 4 4).cells.countP (fun c => c.state.is_mine)
      = demoSample9.length) ∧
    ((demoSample9.length : Int)
      = min demoBoard9.num_mines ((demoBoard9.pool 4 4).length : Int)) ∧
    (∀ p : Int × Int, demoBoard9.is_inbounds p.1 p.2 = true →
      ((demoBoard9.place_mines demoSample9 4 4).mineQ p = true ↔ p ∈ demoSample9)) ∧
    (demoBoard9.place_mines demoSample9 4 4).mines_placed = true ∧
    (∀ (bb : Board) (sample2 : List (Int × Int)) (c r : Int), bb.mines_placed = true →
      ((bb.reveal sample2 c r).mines_placed = true ∧
        ∀ p : Int × Int, (bb.reveal sample2 c r).mineQ p = bb.mineQ p)) :=
  C3_first_click_safe_placement demoBoard9 demoSample9 4 4 (by decide) (by decide)
    (by decide) (by decide)

theorem C5_witness :
    (∀ p : Int × Int, demoBoard9.is_inbounds p.1 p.2 = true →
      (demoBoard9.place_mines demoSample9 4 4).mineQ p = false →
      ((demoBoard9.place_mines demoSample9 4 4).adjQ p
        = (((demoBoard9.neighbors p.1 p.2).countP
            (fun q => (demoBoard9.place_mines demoSample9 4 4).mineQ q)) : Int) ∧
       0 ≤ (demoBoard9.place_mines demoSample9 4 4).adjQ p ∧
       (demoBoard9.place_mines demoSample9 4 4).adjQ p ≤ 8)) ∧
    (∀ (bb : Board) (sample2 : List (Int × Int)) (c r : Int), bb.mines_placed = true →
      ∀ p : Int × Int, (bb.reveal sample2 c r).adjQ p = bb.adjQ p ∧
        (bb.toggle_flag c r).adjQ p = bb.adjQ p ∧
        (bb.toggle_flag c r).mineQ p = bb.mineQ p) :=
  C5_adjacency_counts demoBoard9 demoSample9 4 4 (by decide)

end Minesweeper

namespace Minesweeper

/-! ## get_hint -/

theorem Board.mem_stateAt (b : Board) (hWF : b.WF) {c : Cell} (hmem : c ∈ b.cells) :
    b.stateAt c.col c.row = some c.state := by
  obtain ⟨i, hi, hgl⟩ := List.getElem_of_mem hmem
  have hcoord := hWF.2 i hi
  rw [List.getElem?_eq_getElem hi, hgl] at hcoord
  have hcol : c.col = ((i % b.cols.toNat : Nat) : Int) := by
    have := congrArg (fun o => o.map Prod.fst) hcoord
    simpa using this
  have hrow : c.row = ((i / b.cols.toNat : Nat) : Int) := by
    have := congrArg (fun o => o.map Prod.snd) hcoord
    simpa using this
  have hcn : 0 < b.cols.toNat := by
    rcases Nat.eq_zero_or_pos b.cols.toNat with h0 | h
    · exfalso
      have hlen : b.cells.length = 0 := by
        rw [hWF.1, h0, Nat.zero_mul]
      omega
    · exact h
  have hidx : b.idx c.col c.row = i := by
    rw [Board.idx, Board.index, hcol, hrow]
    have hbc : b.cols = ((b.cols.toNat : Nat) : Int) := by omega
    have h2 : ((i : Int) / ((b.cols.toNat : Nat) : Int)) * b.cols
        = ((i : Int) / ((b.cols.toNat : Nat) : Int)) * ((b.cols.toNat : Nat) : Int) :=
      congrArg (fun x => ((i : Int) / ((b.cols.toNat : Nat) : Int)) * x) hbc
    have h1 : ((i / b.cols.toNat : Nat) : Int) * b.cols + ((i % b.cols.toNat : Nat) : Int)
        = ((i / b.cols.toNat * b.cols.toNat + i % b.cols.toNat : Nat) : Int) := by
      push_cast
      rw [h2]
    rw [h1, Int.toNat_natCast]
    have hdm := Nat.div_add_mod i b.cols.toNat
    rw [Nat.mul_comm] at hdm
    omega
  rw [Board.stateAt, Board.cellAt, hidx, List.getElem?_eq_getElem hi, hgl]
  rfl

theorem Board.mem_safe_unrevealed (b : Board) (hWF : b.WF) {p : Int × Int}
    (hmem : p ∈ b.safe_unrevealed) : b.mineQ p = false ∧ b.revQ p = false := by
  rw [Board.safe_unrevealed] at hmem
  rw [List.mem_map] at hmem
  obtain ⟨c, hc, hpc⟩ := hmem
  rw [List.mem_filter] at hc
  obtain ⟨hcm, hpred⟩ := hc
  have hsa := b.mem_stateAt hWF hcm
  have hmine : c.state.is_mine = false := by
    revert hpred
    cases c.state.is_mine <;> cases c.state.is_revealed <;> simp
  have hrev : c.state.is_revealed = false := by
    revert hpred
    cases c.state.is_mine <;> cases c.state.is_revealed <;> simp
  constructor
  · rw [Board.mineQ, ← hpc]
    show ((b.stateAt c.col c.row).map CellState.is_mine).getD false = false
    rw [hsa]
    simpa using hmine
  · rw [Board.revQ, ← hpc]
    show ((b.stateAt c.col c.row).map CellState.is_revealed).getD false = false
    rw [hsa]
    simpa using hrev

/-- C9: `get_hint` never returns a mine coordinate, it returns a safe
unrevealed position (flags ignored) whenever one exists, it returns `none`
exactly when every non-mine cell is already revealed, and it leaves the
board state unchanged. -/
theorem C9_get_hint_safe (b : Board) (k : Nat) (hWF : b.WF) :
    (∀ p : Int × Int, (b.get_hint k).1 = some p →
      p ∈ b.safe_unrevealed ∧ b.mineQ p = false ∧ b.revQ p = false) ∧
    ((b.get_hint k).1 = none ↔
      ∀ c ∈ b.cells, c.state.is_mine = false → c.state.is_revealed = true) ∧
    ((¬ ∀ c ∈ b.cells, c.state.is_mine = false → c.state.is_revealed = true) →
      ∃ p : Int × Int, (b.get_hint k).1 = some p) ∧
    (b.get_hint k).2 = b := by
  have hempty : b.safe_unrevealed = [] ↔
      ∀ c ∈ b.cells, c.state.is_mine = false → c.state.is_revealed = true := by
    rw [Board.safe_unrevealed, List.map_eq_nil_iff, List.filter_eq_nil_iff]
    constructor
    · intro h c hc hm
      have := h c hc
      revert this
      rw [hm]
      cases c.state.is_revealed <;> simp
    · intro h c hc
      by_cases hm : c.state.is_mine = true
      · rw [hm]
        simp
      · have hm2 : c.state.is_mine = false := by
          revert hm
          cases c.state.is_mine <;> simp
        rw [hm2, h c hc hm2]
        simp
  refine ⟨?_, ?_, ?_, rfl⟩
  · intro p hp
    rw [Board.get_hint] at hp
    by_cases he : b.safe_unrevealed.isEmpty = true
    · rw [if_pos he] at hp
      exact absurd hp (by simp)
    · rw [if_neg he] at hp
      have hmem : p ∈ b.safe_unrevealed := by
        obtain ⟨hlt, hgl⟩ := List.getElem?_eq_some_iff.mp hp
        rw [← hgl]
        exact List.getElem_mem _
      exact ⟨hmem, b.mem_safe_unrevealed hWF hmem⟩
  · rw [Board.get_hint]
    by_cases he : b.safe_unrevealed.isEmpty = true
    · rw [if_pos he]
      simp only [true_iff]
      rw [← hempty]
      exact List.isEmpty_iff.mp he
    · rw [if_neg he]
      have hne : b.safe_unrevealed ≠ [] := fun h => he (List.isEmpty_iff.mpr h)
      have hlen : 0 < b.safe_unrevealed.length := List.length_pos.mpr hne
      have hlt : k % b.safe_unrevealed.length < b.safe_unrevealed.length :=
        Nat.mod_lt _ hlen
      rw [List.getElem?_eq_getElem hlt]
      constructor
      · intro h
        exact absurd h (by simp)
      · intro h
        exact absurd (hempty.mpr h) hne
  · intro hne
    rw [Board.get_hint]
    have hne2 : ¬ b.safe_unrevealed.isEmpty = true := by
      intro he
      exact hne (hempty.mp (List.isEmpty_iff.mp he))
    rw [if_neg hne2]
    have hne3 : b.safe_unrevealed ≠ [] := fun h => hne2 (List.isEmpty_iff.mpr h)
    have hlt : k % b.safe_unrevealed.length < b.safe_unrevealed.length :=
      Nat.mod_lt _ (List.length_pos.mpr hne3)
    rw [List.getElem?_eq_getElem hlt]
    exact ⟨_, rfl⟩

theorem C9_witness :
    (∀ p : Int × Int, ((Board.init 3 1 1).get_hint 5).1 = some p →
      p ∈ (Board.init 3 1 1).safe_unrevealed ∧ (Board.init 3 1 1).mineQ p = false ∧
      (Board.init 3 1 1).revQ p = false) ∧
    (((Board.init 3 1 1).get_hint 5).1 = none ↔
      ∀ c ∈ (Board.init 3 1 1).cells, c.state.is_mine = false → c.state.is_revealed = true) ∧
    ((¬ ∀ c ∈ (Board.init 3 1 1).cells,
        c.state.is_mine = false → c.state.is_revealed = true) →
      ∃ p : Int × Int, ((Board.init 3 1 1).get_hint 5).1 = some p) ∧
    ((Board.init 3 1 1).get_hint 5).2 = Board.init 3 1 1 :=
  C9_get_hint_safe (Board.init 3 1 1) 5 (by decide)

end Minesweeper

namespace Minesweeper

/-! ## Losing reveal -/

theorem Board.reveal_all_mines_revQ (b : Board) (p : Int × Int) :
    b.reveal_all_mines.revQ p = (b.mineQ p || b.revQ p) := by
  rw [Board.revQ_eq_cells, Board.mineQ_eq_cells, Board.revQ_eq_cells]
  have hidx : b.reveal_all_mines.idx p.1 p.2 = b.idx p.1 p.2 := rfl
  rw [hidx]
  show ((b.cells.map (fun c =>
    if c.state.is_mine then { c with state := { c.state with is_revealed := true } }
    else c))[b.idx p.1 p.2]?.map (fun c => c.state.is_revealed)).getD false = _
  rw [List.getElem?_map]
  cases hx : b.cells[b.idx p.1 p.2]? with
  | none => rfl
  | some c =>
    by_cases hm : c.state.is_mine = true
    · simp [hm]
    · have hm2 : c.state.is_mine = false := by
        revert hm
        cases c.state.is_mine <;> simp
      simp [hm2]

/-- C10: a reveal that hits a mine sets `game_over`, reveals every mine cell
(including currently flagged ones) without clearing any flag; and a state in
which a cell is simultaneously revealed and flagged is reachable through the
public interface (`lossBoard`). -/
theorem C10_loss_reveals_flagged_mines (b : Board) (sample : List (Int × Int)) (col row : Int)
    (hpl : b.mines_placed = true) {s : CellState}
    (hs : b.stateAt col row = some s) (hrev : s.is_revealed = false)
    (hflag : s.is_flagged = false) (hm : s.is_mine = true)
    (hin : b.is_inbounds col row = true) (hgo : b.game_over = false) (hwin : b.win = false) :
    ((b.reveal sample col row).game_over = true ∧
     (∀ p : Int × Int, b.mineQ p = true → (b.reveal sample col row).revQ p = true) ∧
     (∀ p : Int × Int, (b.reveal sample col row).flagQ p = b.flagQ p)) ∧
    (Reachable (Board.init 6 1 2) lossBoard ∧
     lossBoard.mineQ (3, 0) = true ∧
     lossBoard.revQ (3, 0) = true ∧ lossBoard.flagQ (3, 0) = true) := by
  constructor
  · obtain ⟨c, hc, hcs⟩ := Board.stateAt_elim hs
    rw [b.reveal_main sample col row hin hgo hwin hs hrev hflag]
    dsimp only
    rw [if_pos hpl]
    rw [Board.revealCellAt_stateAt_self b col row hc]
    dsimp only
    have hm2 : ({ c.state with is_revealed := true } : CellState).is_mine = true := by
      show c.state.is_mine = true
      rw [hcs]
      exact hm
    rw [if_pos hm2]
    refine ⟨?_, ?_, ?_⟩
    · rw [(Board.reveal_all_mines_revealOnly _).2.2.2.2.1]
    · intro p hmp
      rw [Board.reveal_all_mines_revQ]
      have h1 : ({ b.revealCellAt col row with game_over := true } : Board).mineQ p
          = b.mineQ p := by
        have h2 : ({ b.revealCellAt col row with game_over := true } : Board).mineQ p
            = (b.revealCellAt col row).mineQ p := rfl
        rw [h2, (b.revealCellAt_revealOnly col row).mineQ_eq p]
      rw [h1, hmp]
      exact Bool.true_or _
    · intro p
      rw [(Board.reveal_all_mines_revealOnly _).flagQ_eq p]
      have h2 : ({ b.revealCellAt col row with game_over := true } : Board).flagQ p
          = (b.revealCellAt col row).flagQ p := rfl
      rw [h2, (b.revealCellAt_revealOnly col row).flagQ_eq p]
  · refine ⟨?_, by decide, by decide, by decide⟩
    exact Reachable.reveal [] 5 0
      (Reachable.toggle 3 0
        (Reachable.reveal [(3, 0), (5, 0)] 0 0 (Reachable.refl _) (fun _ => by decide)))
      (fun hu => absurd hu (by decide))

/-- C10 witness: the loss theorem applied to the concrete 6x1 pre-loss board
`C10Board`, revealing the hidden mine at (5,0); the flagged mine at (3,0)
ends up revealed with its flag intact. -/
theorem C10_witness :
    (C10Board.reveal [] 5 0).game_over = true ∧
    (C10Board.reveal [] 5 0).revQ (3, 0) = true ∧
    (C10Board.reveal [] 5 0).flagQ (3, 0) = C10Board.flagQ (3, 0) ∧
    lossBoard.revQ (3, 0) = true ∧ lossBoard.flagQ (3, 0) = true := by
  have h := C10_loss_reveals_flagged_mines C10Board [] 5 0 (by decide)
    (show C10Board.stateAt 5 0 = some ⟨true, false, false, 0⟩ by decide)
    (by decide) (by decide) (by decide) (by decide) (by decide) (by decide)
  exact ⟨h.1.1, h.1.2.1 (3, 0) (by decide), h.1.2.2 (3, 0), h.2.2.2.1, h.2.2.2.2⟩

end Minesweeper

namespace Minesweeper

/-! ## C4: characterization of the flood-fill region -/

/-- One step of zero-adjacency flooding in board `b`: from a zero-adjacency,
unrevealed, unflagged cell to any of its in-bounds neighbors. -/
def ZStep (b : Board) (q q' : Int × Int) : Prop :=
  q' ∈ b.neighbors q.1 q.2 ∧ b.adjQ q = 0 ∧ b.revQ q = false ∧ b.flagQ q = false

/-- Membership in the zero-region of a click at `start`: reachable from
`start` through zero-adjacency, unrevealed, unflagged cells, and itself
zero-adjacency, unrevealed and unflagged. -/
def InRegion (b : Board) (start q : Int × Int) : Prop :=
  Relation.ReflTransGen (ZStep b) start q ∧
  b.adjQ q = 0 ∧ b.revQ q = false ∧ b.flagQ q = false

theorem InRegion_start (b : Board) (start : Int × Int)
    (h1 : b.adjQ start = 0) (h2 : b.revQ start = false) (h3 : b.flagQ start = false) :
    InRegion b start start :=
  ⟨Relation.ReflTransGen.refl, h1, h2, h3⟩

theorem InRegion_extend (b : Board) (start q x : Int × Int)
    (hq : InRegion b start q) (hnb : x ∈ b.neighbors q.1 q.2)
    (h1 : b.adjQ x = 0) (h2 : b.revQ x = false) (h3 : b.flagQ x = false) :
    InRegion b start x :=
  ⟨Relation.ReflTransGen.tail hq.1 ⟨hnb, hq.2.1, hq.2.2.1, hq.2.2.2⟩, h1, h2, h3⟩

theorem InRegion_inbounds {b : Board} {start q : Int × Int}
    (hin : b.is_inbounds start.1 start.2 = true) (h : InRegion b start q) :
    b.is_inbounds q.1 q.2 = true := by
  rcases Relation.ReflTransGen.cases_tail h.1 with heq | ⟨c, _, hstep⟩
  · rw [heq]
    exact hin
  · exact Board.mem_neighbors b hstep.1

theorem Board.revQ_of_stateAt {b : Board} {p : Int × Int} {s : CellState}
    (h : b.stateAt p.1 p.2 = some s) : b.revQ p = s.is_revealed := by
  rw [Board.revQ, h]
  rfl

theorem Board.flagQ_of_stateAt {b : Board} {p : Int × Int} {s : CellState}
    (h : b.stateAt p.1 p.2 = some s) : b.flagQ p = s.is_flagged := by
  rw [Board.flagQ, h]
  rfl

theorem Board.adjQ_of_stateAt {b : Board} {p : Int × Int} {s : CellState}
    (h : b.stateAt p.1 p.2 = some s) : b.adjQ p = s.adjacent := by
  rw [Board.adjQ, h]
  rfl

theorem Board.mineQ_of_stateAt {b : Board} {p : Int × Int} {s : CellState}
    (h : b.stateAt p.1 p.2 = some s) : b.mineQ p = s.is_mine := by
  rw [Board.mineQ, h]
  rfl

theorem Board.stateAt_isSome (b : Board) (hWF : b.WF) {p : Int × Int}
    (hin : b.is_inbounds p.1 p.2 = true) : ∃ s, b.stateAt p.1 p.2 = some s := by
  have hlt := b.idx_lt hWF hin
  rw [Board.stateAt, Board.cellAt]
  cases hx : b.cells[b.idx p.1 p.2]? with
  | none =>
    rw [List.getElem?_eq_none_iff] at hx
    omega
  | some c => exact ⟨c.state, rfl⟩

theorem Board.revealCellAt_revQ_ne (b : Board) (c r : Int) (p : Int × Int)
    (hne : ¬ b.idx p.1 p.2 = b.idx c r) :
    (b.revealCellAt c r).revQ p = b.revQ p := by
  rw [Board.revQ, Board.revQ, Board.stateAt, Board.stateAt, Board.cellAt, Board.cellAt]
  have hidx : (b.revealCellAt c r).idx p.1 p.2 = b.idx p.1 p.2 := rfl
  have hcl : (b.revealCellAt c r).cells = updateCell b.cells (b.idx c r)
      (fun s => { s with is_revealed := true }) := rfl
  rw [hidx, hcl, getElem?_updateCell_ne hne]

theorem Board.revealCellAt_revQ_hit (b : Board) (c r : Int) {cell : Cell}
    (hc : b.cells[b.idx c r]? = some cell) (p : Int × Int)
    (hidx : b.idx p.1 p.2 = b.idx c r) :
    (b.revealCellAt c r).revQ p = true := by
  rw [Board.revQ, Board.stateAt, Board.cellAt]
  have hidx2 : (b.revealCellAt c r).idx p.1 p.2 = b.idx p.1 p.2 := rfl
  have hcl : (b.revealCellAt c r).cells = updateCell b.cells (b.idx c r)
      (fun s => { s with is_revealed := true }) := rfl
  rw [hidx2, hcl, hidx, getElem?_updateCell_self hc]
  rfl

/-- Full case analysis of a single flood-fill neighbor visit. -/
theorem floodVisit_eq (acc : Board × List (Int × Int)) (q : Int × Int) :
    ((acc.1).stateAt q.1 q.2 = none ∧ floodVisit acc q = acc) ∨
    (∃ s : CellState, (acc.1).stateAt q.1 q.2 = some s ∧
      (((s.is_revealed = true ∨ s.is_flagged = true) ∧ floodVisit acc q = acc) ∨
       (s.is_revealed = false ∧ s.is_flagged = false ∧
        floodVisit acc q = ((acc.1).revealCellAt q.1 q.2,
          if s.adjacent = 0 then q :: acc.2 else acc.2)))) := by
  rw [floodVisit]
  cases h : (acc.1).stateAt q.1 q.2 with
  | none => exact Or.inl ⟨rfl, rfl⟩
  | some s =>
    dsimp only
    refine Or.inr ⟨s, rfl, ?_⟩
    by_cases h1 : (!s.is_revealed && !s.is_flagged) = true
    · rw [if_pos h1]
      have hrev : s.is_revealed = false := by
        revert h1
        cases s.is_revealed <;> simp
      have hflag : s.is_flagged = false := by
        revert h1
        cases s.is_flagged <;> simp
      refine Or.inr ⟨hrev, hflag, ?_⟩
      by_cases h2 : s.adjacent = 0
      · rw [if_pos h2, if_pos h2]
      · rw [if_neg h2, if_neg h2]
    · rw [if_neg h1]
      have hor : s.is_revealed = true ∨ s.is_flagged = true := by
        revert h1
        cases s.is_revealed <;> cases s.is_flagged <;> simp
      exact Or.inl ⟨hor, rfl⟩

theorem floodVisit_stack_sub (acc : Board × List (Int × Int)) (q : Int × Int) :
    ∀ x ∈ acc.2, x ∈ (floodVisit acc q).2 := by
  intro x hx
  rcases floodVisit_eq acc q with ⟨_, heq⟩ | ⟨s, _, ⟨_, heq⟩ | ⟨_, _, heq⟩⟩
  · rw [heq]
    exact hx
  · rw [heq]
    exact hx
  · rw [heq]
    have hgoal : x ∈ (if s.adjacent = 0 then q :: acc.2 else acc.2) := by
      by_cases h2 : s.adjacent = 0
      · rw [if_pos h2]
        exact List.mem_cons_of_mem q hx
      · rw [if_neg h2]
        exact hx
    exact hgoal

theorem foldl_floodVisit_stack_sub (L : List (Int × Int)) :
    ∀ (acc : Board × List (Int × Int)) (x : Int × Int), x ∈ acc.2 →
      x ∈ (L.foldl floodVisit acc).2 := by
  induction L with
  | nil => intro acc x hx; exact hx
  | cons q L ih =>
    intro acc x hx
    rw [List.foldl_cons]
    exact ih (floodVisit acc q) x (floodVisit_stack_sub acc q x hx)

/-- Every element of the stack produced by one inner `for` loop either was
already on the stack or is a visited neighbor that was unrevealed,
unflagged and zero-adjacency when the loop started. -/
theorem foldl_floodVisit_stack_src (L : List (Int × Int)) :
    ∀ (acc : Board × List (Int × Int)) (x : Int × Int),
      x ∈ (L.foldl floodVisit acc).2 →
      x ∈ acc.2 ∨ (x ∈ L ∧ (acc.1).revQ x = false ∧ (acc.1).flagQ x = false ∧
        (acc.1).adjQ x = 0) := by
  induction L with
  | nil => intro acc x hx; exact Or.inl hx
  | cons q L ih =>
    intro acc x hx
    rw [List.foldl_cons] at hx
    have hRO := floodVisit_revealOnly acc q
    rcases ih (floodVisit acc q) x hx with hmem | ⟨hL, hr, hf, ha⟩
    · rcases floodVisit_eq acc q with ⟨_, heq⟩ | ⟨s, hs, ⟨_, heq⟩ | ⟨hrev, hflag, heq⟩⟩
      · rw [heq] at hmem
        exact Or.inl hmem
      · rw [heq] at hmem
        exact Or.inl hmem
      · rw [heq] at hmem
        have hm2 : x ∈ (if s.adjacent = 0 then q :: acc.2 else acc.2) := hmem
        by_cases h2 : s.adjacent = 0
        · rw [if_pos h2] at hm2
          rcases List.mem_cons.mp hm2 with hxq | hmem2
          · rw [hxq]
            refine Or.inr ⟨List.mem_cons_self q L, ?_, ?_, ?_⟩
            · rw [Board.revQ_of_stateAt hs]
              exact hrev
            · rw [Board.flagQ_of_stateAt hs]
              exact hflag
            · rw [Board.adjQ_of_stateAt hs]
              exact h2
          · exact Or.inl hmem2
        · rw [if_neg h2] at hm2
          exact Or.inl hm2
    · refine Or.inr ⟨List.mem_cons_of_mem q hL, ?_, ?_, ?_⟩
      · cases hrx : (acc.1).revQ x with
        | false => rfl
        | true =>
          rw [hRO.revQ_mono x hrx] at hr
          simp at hr
      · rw [hRO.flagQ_eq x] at hf
        exact hf
      · rw [hRO.adjQ_eq x] at ha
        exact ha

end Minesweeper

namespace Minesweeper

/-- Cells revealed by one inner `for` loop were already revealed or are
unflagged visited neighbors: the scan never reveals a flagged or
out-of-list cell. -/
theorem foldl_floodVisit_rev_src (L : List (Int × Int)) :
    ∀ acc : Board × List (Int × Int), (acc.1).WF →
      (∀ q ∈ L, (acc.1).is_inbounds q.1 q.2 = true) →
      ∀ p : Int × Int, (acc.1).is_inbounds p.1 p.2 = true →
      ((L.foldl floodVisit acc).1).revQ p = true →
      (acc.1).revQ p = true ∨ (p ∈ L ∧ (acc.1).flagQ p = false) := by
  induction L with
  | nil => intro acc _ _ p _ hx; exact Or.inl hx
  | cons q L ih =>
    intro acc hWF hinL p hp hx
    rw [List.foldl_cons] at hx
    have hRO := floodVisit_revealOnly acc q
    have hWF2 : ((floodVisit acc q).1).WF := hRO.WF hWF
    have hinq : (acc.1).is_inbounds q.1 q.2 = true := hinL q (List.mem_cons_self q L)
    have hinL2 : ∀ r ∈ L, ((floodVisit acc q).1).is_inbounds r.1 r.2 = true := by
      intro r hr
      rw [Board.is_inbounds_congr hRO.1 hRO.2.1]
      exact hinL r (List.mem_cons_of_mem q hr)
    have hp2 : ((floodVisit acc q).1).is_inbounds p.1 p.2 = true := by
      rw [Board.is_inbounds_congr hRO.1 hRO.2.1]
      exact hp
    rcases ih (floodVisit acc q) hWF2 hinL2 p hp2 hx with hrev2 | ⟨hpL, hflag2⟩
    · rcases floodVisit_eq acc q with ⟨_, heq⟩ | ⟨s, hs, ⟨_, heq⟩ | ⟨hsr, hsf, heq⟩⟩
      · rw [heq] at hrev2
        exact Or.inl hrev2
      · rw [heq] at hrev2
        exact Or.inl hrev2
      · have hb2 : (floodVisit acc q).1 = (acc.1).revealCellAt q.1 q.2 := by rw [heq]
        rw [hb2] at hrev2
        by_cases hidx : (acc.1).idx p.1 p.2 = (acc.1).idx q.1 q.2
        · have hpq : p = q := (acc.1).idx_inj hp hinq hidx
          rw [hpq]
          exact Or.inr ⟨List.mem_cons_self q L, by rw [Board.flagQ_of_stateAt hs]; exact hsf⟩
        · rw [Board.revealCellAt_revQ_ne (acc.1) q.1 q.2 p hidx] at hrev2
          exact Or.inl hrev2
    · refine Or.inr ⟨List.mem_cons_of_mem q hpL, ?_⟩
      rw [hRO.flagQ_eq p] at hflag2
      exact hflag2

/-- After the inner `for` loop over a list of in-bounds positions, every
visited position is revealed or flagged. -/
theorem foldl_floodVisit_covers (L : List (Int × Int)) :
    ∀ acc : Board × List (Int × Int), (acc.1).WF →
      (∀ q ∈ L, (acc.1).is_inbounds q.1 q.2 = true) →
      ∀ p ∈ L, ((L.foldl floodVisit acc).1).revQ p = true ∨
        ((L.foldl floodVisit acc).1).flagQ p = true := by
  induction L with
  | nil => intro acc _ _ p hp; exact absurd hp (List.not_mem_nil p)
  | cons q L ih =>
    intro acc hWF hinL p hp
    rw [List.foldl_cons]
    have hRO := floodVisit_revealOnly acc q
    have hWF2 := hRO.WF hWF
    have hinq := hinL q (List.mem_cons_self q L)
    have hinL2 : ∀ r ∈ L, ((floodVisit acc q).1).is_inbounds r.1 r.2 = true := by
      intro r hr
      rw [Board.is_inbounds_congr hRO.1 hRO.2.1]
      exact hinL r (List.mem_cons_of_mem q hr)
    rcases List.mem_cons.mp hp with hpq | hpL
    · have hclaim : ((floodVisit acc q).1).revQ q = true ∨
          ((floodVisit acc q).1).flagQ q = true := by
        rcases floodVisit_eq acc q with ⟨hnone, heq⟩ | ⟨s, hs, ⟨hor, heq⟩ | ⟨hsr, hsf, heq⟩⟩
        · obtain ⟨s, hsome⟩ := (acc.1).stateAt_isSome hWF hinq
          rw [hsome] at hnone
          exact Option.noConfusion hnone
        · rw [heq]
          rcases hor with h | h
          · exact Or.inl (by rw [Board.revQ_of_stateAt hs]; exact h)
          · exact Or.inr (by rw [Board.flagQ_of_stateAt hs]; exact h)
        · have hb2 : (floodVisit acc q).1 = (acc.1).revealCellAt q.1 q.2 := by rw [heq]
          obtain ⟨c, hc, _⟩ := Board.stateAt_elim hs
          rw [hb2]
          exact Or.inl (Board.revealCellAt_revQ_hit (acc.1) q.1 q.2 hc q rfl)
      have hRO2 := foldl_floodVisit_revealOnly L (floodVisit acc q)
      rw [hpq]
      rcases hclaim with h | h
      · exact Or.inl (hRO2.revQ_mono q h)
      · refine Or.inr ?_
        rw [hRO2.flagQ_eq q]
        exact h
    · exact ih (floodVisit acc q) hWF2 hinL2 p hpL

/-- A zero-adjacency cell newly revealed during the inner `for` loop is
pushed onto the stack. -/
theorem foldl_floodVisit_push (L : List (Int × Int)) :
    ∀ acc : Board × List (Int × Int), (acc.1).WF →
      (∀ q ∈ L, (acc.1).is_inbounds q.1 q.2 = true) →
      ∀ x : Int × Int, (acc.1).is_inbounds x.1 x.2 = true →
        (acc.1).adjQ x = 0 → (acc.1).revQ x = false →
        ((L.foldl floodVisit acc).1).revQ x = true →
        x ∈ (L.foldl floodVisit acc).2 := by
  induction L with
  | nil =>
    intro acc _ _ x _ _ hr0 hr1
    rw [List.foldl_nil] at hr1
    rw [hr0] at hr1
    exact Bool.noConfusion hr1
  | cons q L ih =>
    intro acc hWF hinL x hx hadj hrev hfinal
    rw [List.foldl_cons] at hfinal ⊢
    have hRO := floodVisit_revealOnly acc q
    have hWF2 := hRO.WF hWF
    have hinq := hinL q (List.mem_cons_self q L)
    have hinL2 : ∀ r ∈ L, ((floodVisit acc q).1).is_inbounds r.1 r.2 = true := by
      intro r hr
      rw [Board.is_inbounds_congr hRO.1 hRO.2.1]
      exact hinL r (List.mem_cons_of_mem q hr)
    cases hmid : ((floodVisit acc q).1).revQ x with
    | false =>
      refine ih (floodVisit acc q) hWF2 hinL2 x ?_ ?_ hmid hfinal
      · rw [Board.is_inbounds_congr hRO.1 hRO.2.1]
        exact hx
      · rw [hRO.adjQ_eq x]
        exact hadj
    | true =>
      rcases floodVisit_eq acc q with ⟨_, heq⟩ | ⟨s, hs, ⟨_, heq⟩ | ⟨hsr, hsf, heq⟩⟩
      · rw [heq] at hmid
        rw [hrev] at hmid
        exact Bool.noConfusion hmid
      · rw [heq] at hmid
        rw [hrev] at hmid
        exact Bool.noConfusion hmid
      · have hb2 : (floodVisit acc q).1 = (acc.1).revealCellAt q.1 q.2 := by rw [heq]
        by_cases hidx : (acc.1).idx x.1 x.2 = (acc.1).idx q.1 q.2
        · have hxq : x = q := (acc.1).idx_inj hx hinq hidx
          have hadjq : s.adjacent = 0 := by
            rw [hxq, Board.adjQ_of_stateAt hs] at hadj
            exact hadj
          have hst : (floodVisit acc q).2 = q :: acc.2 := by
            rw [heq]
            have h2 : (if s.adjacent = 0 then q :: acc.2 else acc.2) = q :: acc.2 := by
              rw [if_pos hadjq]
            exact h2
          refine foldl_floodVisit_stack_sub L (floodVisit acc q) x ?_
          rw [hst, hxq]
          exact List.mem_cons_self q acc.2
        · rw [hb2, Board.revealCellAt_revQ_ne (acc.1) q.1 q.2 x hidx] at hmid
          rw [hrev] at hmid
          exact Bool.noConfusion hmid

end Minesweeper

namespace Minesweeper

/-- Loop invariant of the flood-fill `while` loop for a click at `start` on
board `b`: the working board differs from `b` by reveals only, the clicked
cell is revealed, the stack holds region members, every revealed cell is
accounted for (soundness), and every revealed region member is pending on
the stack or already fully expanded. -/
def FloodInv (b : Board) (start : Int × Int) (bst : Board)
    (stack : List (Int × Int)) : Prop :=
  RevealOnly b bst ∧
  bst.revQ start = true ∧
  (∀ x ∈ stack, InRegion b start x) ∧
  (∀ p : Int × Int, b.is_inbounds p.1 p.2 = true → bst.revQ p = true →
     b.revQ p = true ∨ p = start ∨
       (b.flagQ p = false ∧ ∃ q, InRegion b start q ∧ p ∈ b.neighbors q.1 q.2)) ∧
  (∀ q : Int × Int, InRegion b start q → bst.revQ q = true →
     q ∈ stack ∨ ∀ p ∈ b.neighbors q.1 q.2, bst.revQ p = true ∨ bst.flagQ p = true)

/-- If every revealed region member is fully expanded, the whole region is
revealed (by induction along the region paths). -/
theorem region_revealed_of_expanded (b : Board) (start : Int × Int) (bst : Board)
    (hRO : RevealOnly b bst) (hstart : bst.revQ start = true)
    (hexp : ∀ q : Int × Int, InRegion b start q → bst.revQ q = true →
       ∀ p ∈ b.neighbors q.1 q.2, bst.revQ p = true ∨ bst.flagQ p = true) :
    ∀ q : Int × Int, InRegion b start q → bst.revQ q = true := by
  intro q hq
  obtain ⟨hpath, h1, h2, h3⟩ := hq
  revert h1 h2 h3
  induction hpath with
  | refl => intro h1 h2 h3; exact hstart
  | @tail m c hab hbc ih =>
    intro h1 h2 h3
    obtain ⟨hnb, ha, hr, hf⟩ := hbc
    have hm : bst.revQ m = true := ih ha hr hf
    have hregm : InRegion b start m := ⟨hab, ha, hr, hf⟩
    rcases hexp m hregm hm c hnb with h | h
    · exact h
    · rw [hRO.flagQ_eq c, h3] at h
      exact Bool.noConfusion h

/-- The flood-fill `while` loop, run with enough fuel from a state
satisfying the invariant, reveals exactly: what was already revealed, the
clicked cell, and the unflagged neighbors of region members. -/
theorem floodLoop_spec (b : Board) (start : Int × Int) (hWF : b.WF)
    (hin : b.is_inbounds start.1 start.2 = true) :
    ∀ (fuel : Nat) (bst : Board) (stack : List (Int × Int)),
      stack.length + bst.unrevealedCount < fuel →
      FloodInv b start bst stack →
      ∀ p : Int × Int, b.is_inbounds p.1 p.2 = true →
        ((floodLoop fuel bst stack).revQ p = true ↔
          (b.revQ p = true ∨ p = start ∨
            (b.flagQ p = false ∧ ∃ q, InRegion b start q ∧ p ∈ b.neighbors q.1 q.2))) := by
  intro fuel
  induction fuel with
  | zero =>
    intro bst stack hm
    exact absurd hm (Nat.not_lt_zero _)
  | succ n ihn =>
    intro bst stack hm hInv p hp
    obtain ⟨hRO, hstart, hstack, hsound, hexp⟩ := hInv
    cases stack with
    | nil =>
      have hred : floodLoop (n + 1) bst [] = bst := rfl
      rw [hred]
      constructor
      · exact hsound p hp
      · intro hrhs
        rcases hrhs with h | h | ⟨hfl, q, hq, hnb⟩
        · exact hRO.revQ_mono p h
        · rw [h]
          exact hstart
        · have hregall := region_revealed_of_expanded b start bst hRO hstart
            (fun q2 hq2 hrev2 =>
              (hexp q2 hq2 hrev2).resolve_left (fun hc => absurd hc (List.not_mem_nil q2)))
          have hqrev := hregall q hq
          rcases hexp q hq hqrev with hqs | hfull
          · exact absurd hqs (List.not_mem_nil q)
          · rcases hfull p hnb with h | h
            · exact h
            · rw [hRO.flagQ_eq p, hfl] at h
              exact Bool.noConfusion h
    | cons r rest =>
      have hred : floodLoop (n + 1) bst (r :: rest) =
          floodLoop n ((bst.neighbors r.1 r.2).foldl floodVisit (bst, rest)).1
            ((bst.neighbors r.1 r.2).foldl floodVisit (bst, rest)).2 := rfl
      rw [hred]
      have hbnb : bst.neighbors r.1 r.2 = b.neighbors r.1 r.2 :=
        Board.neighbors_congr hRO.1 hRO.2.1 r.1 r.2
      have hWFb : bst.WF := hRO.WF hWF
      have hinLb : ∀ q ∈ bst.neighbors r.1 r.2, bst.is_inbounds q.1 q.2 = true :=
        fun q hq => Board.mem_neighbors bst hq
      have hROf := foldl_floodVisit_revealOnly (bst.neighbors r.1 r.2) (bst, rest)
      have hRO2 : RevealOnly b ((bst.neighbors r.1 r.2).foldl floodVisit (bst, rest)).1 :=
        hRO.trans hROf
      have hib : ∀ c2 r2 : Int, bst.is_inbounds c2 r2 = b.is_inbounds c2 r2 :=
        fun c2 r2 => Board.is_inbounds_congr hRO.1 hRO.2.1 c2 r2
      have hrreg : InRegion b start r := hstack r (List.mem_cons_self r rest)
      have hmeas : ((bst.neighbors r.1 r.2).foldl floodVisit (bst, rest)).2.length +
          ((bst.neighbors r.1 r.2).foldl floodVisit (bst, rest)).1.unrevealedCount < n := by
        have hle := foldl_floodVisit_measure (bst.neighbors r.1 r.2) (bst, rest)
        rw [List.length_cons] at hm
        have hle2 : (bst, rest).2.length + (bst, rest).1.unrevealedCount =
            rest.length + bst.unrevealedCount := rfl
        rw [hle2] at hle
        omega
      have hInv2 : FloodInv b start ((bst.neighbors r.1 r.2).foldl floodVisit (bst, rest)).1
          ((bst.neighbors r.1 r.2).foldl floodVisit (bst, rest)).2 := by
        refine ⟨hRO2, hROf.revQ_mono start hstart, ?_, ?_, ?_⟩
        · intro x hx
          rcases foldl_floodVisit_stack_src (bst.neighbors r.1 r.2) (bst, rest) x hx with
            hrest | ⟨hL, hr2, hf2, ha2⟩
          · exact hstack x (List.mem_cons_of_mem r hrest)
          · rw [hbnb] at hL
            refine InRegion_extend b start r x hrreg hL ?_ ?_ ?_
            · rw [hRO.adjQ_eq x] at ha2
              exact ha2
            · cases hbx : b.revQ x with
              | false => rfl
              | true =>
                rw [hRO.revQ_mono x hbx] at hr2
                exact Bool.noConfusion hr2
            · rw [hRO.flagQ_eq x] at hf2
              exact hf2
        · intro p2 hp2 hrev2
          have hp2b : bst.is_inbounds p2.1 p2.2 = true := by
            rw [hib]
            exact hp2
          rcases foldl_floodVisit_rev_src (bst.neighbors r.1 r.2) (bst, rest) hWFb hinLb
              p2 hp2b hrev2 with hb | ⟨hL, hf2⟩
          · exact hsound p2 hp2 hb
          · refine Or.inr (Or.inr ⟨?_, r, hrreg, ?_⟩)
            · rw [hRO.flagQ_eq p2] at hf2
              exact hf2
            · rw [hbnb] at hL
              exact hL
        · intro q hq hrev2
          by_cases hqr : q = r
          · refine Or.inr ?_
            intro p2 hp2
            rw [hqr] at hp2
            rw [← hbnb] at hp2
            exact foldl_floodVisit_covers (bst.neighbors r.1 r.2) (bst, rest) hWFb hinLb p2 hp2
          · cases hbq : bst.revQ q with
            | true =>
              rcases hexp q hq hbq with hqs | hfull
              · rcases List.mem_cons.mp hqs with h | h
                · exact absurd h hqr
                · exact Or.inl (foldl_floodVisit_stack_sub (bst.neighbors r.1 r.2)
                    (bst, rest) q h)
              · refine Or.inr ?_
                intro p2 hp2
                rcases hfull p2 hp2 with h | h
                · exact Or.inl (hROf.revQ_mono p2 h)
                · refine Or.inr ?_
                  rw [hROf.flagQ_eq p2]
                  exact h
            | false =>
              refine Or.inl ?_
              refine foldl_floodVisit_push (bst.neighbors r.1 r.2) (bst, rest) hWFb hinLb
                q ?_ ?_ hbq hrev2
              · rw [hib]
                exact InRegion_inbounds hin hq
              · rw [hRO.adjQ_eq q]
                exact hq.2.1
      exact ihn ((bst.neighbors r.1 r.2).foldl floodVisit (bst, rest)).1
        ((bst.neighbors r.1 r.2).foldl floodVisit (bst, rest)).2 hmeas hInv2 p hp

end Minesweeper

namespace Minesweeper

theorem Board.check_win_revQ (b : Board) (p : Int × Int) :
    b.check_win.revQ p = b.revQ p := by
  rw [Board.check_win]
  by_cases h : b.revealed_count = b.cols * b.rows - b.num_mines ∧ b.game_over = false
  · rw [if_pos h]
    rfl
  · rw [if_neg h]

theorem Board.check_win_flagQ (b : Board) (p : Int × Int) :
    b.check_win.flagQ p = b.flagQ p := by
  rw [Board.check_win]
  by_cases h : b.revealed_count = b.cols * b.rows - b.num_mines ∧ b.game_over = false
  · rw [if_pos h]
    rfl
  · rw [if_neg h]

/-- `reveal` on a mines-placed board, clicking an unrevealed, unflagged,
non-mine, zero-adjacency cell: the revealed set afterwards is exactly the
previously revealed cells, the clicked cell, and the unflagged neighbors of
zero-region members; flags are untouched.  The right-hand side does not
mention the traversal, so the final revealed set is independent of the
visit order. -/
theorem Board.reveal_flood_char (b : Board) (sample : List (Int × Int)) (col row : Int)
    (hWF : b.WF) (hpl : b.mines_placed = true) {s : CellState}
    (hs : b.stateAt col row = some s) (hrev : s.is_revealed = false)
    (hflag : s.is_flagged = false) (hmine : s.is_mine = false) (hadj : s.adjacent = 0)
    (hin : b.is_inbounds col row = true) (hgo : b.game_over = false) (hwin : b.win = false) :
    (∀ p : Int × Int, b.is_inbounds p.1 p.2 = true →
       ((b.reveal sample col row).revQ p = true ↔
         (b.revQ p = true ∨ p = (col, row) ∨
           (b.flagQ p = false ∧ ∃ q, InRegion b (col, row) q ∧ p ∈ b.neighbors q.1 q.2)))) ∧
    (∀ p : Int × Int, (b.reveal sample col row).flagQ p = b.flagQ p) := by
  obtain ⟨c, hc, hcs⟩ := Board.stateAt_elim hs
  rw [b.reveal_main sample col row hin hgo hwin hs hrev hflag]
  dsimp only
  rw [if_pos hpl]
  rw [Board.revealCellAt_stateAt_self b col row hc]
  dsimp only
  have hm2 : ({ c.state with is_revealed := true } : CellState).is_mine = false := by
    show c.state.is_mine = false
    rw [hcs]
    exact hmine
  rw [if_neg (by rw [hm2]; exact Bool.false_ne_true)]
  have ha2 : ({ c.state with is_revealed := true } : CellState).adjacent = 0 := by
    show c.state.adjacent = 0
    rw [hcs]
    exact hadj
  rw [if_pos ha2]
  have hRO1 := b.revealCellAt_revealOnly col row
  have hlen : (b.revealCellAt col row).cells.length = b.cells.length :=
    hRO1.2.2.2.2.2.2.1
  have hcnt := b.revealCellAt_unrevealedCount hs hrev
  have hub : b.unrevealedCount ≤ b.cells.length := by
    rw [Board.unrevealedCount]
    exact List.countP_le_length _
  have hmeas : ([(col, row)] : List (Int × Int)).length +
      (b.revealCellAt col row).unrevealedCount <
      (b.revealCellAt col row).cells.length + 1 := by
    have hone : ([(col, row)] : List (Int × Int)).length = 1 := rfl
    rw [hone, hlen]
    omega
  have hInv0 : FloodInv b (col, row) (b.revealCellAt col row) [(col, row)] := by
    refine ⟨hRO1, ?_, ?_, ?_, ?_⟩
    · exact Board.revealCellAt_revQ_hit b col row hc (col, row) rfl
    · intro x hx
      rcases List.mem_singleton.mp hx with rfl
      refine InRegion_start b (col, row) ?_ ?_ ?_
      · exact (Board.adjQ_of_stateAt hs).trans hadj
      · exact (Board.revQ_of_stateAt hs).trans hrev
      · exact (Board.flagQ_of_stateAt hs).trans hflag
    · intro p2 hp2 hrev2
      by_cases hidx : b.idx p2.1 p2.2 = b.idx col row
      · exact Or.inr (Or.inl (b.idx_inj hp2 hin hidx))
      · rw [Board.revealCellAt_revQ_ne b col row p2 hidx] at hrev2
        exact Or.inl hrev2
    · intro q hq hrev2
      by_cases hidx : b.idx q.1 q.2 = b.idx col row
      · refine Or.inl ?_
        have hqe : q = (col, row) := b.idx_inj (InRegion_inbounds hin hq) hin hidx
        rw [hqe]
        exact List.mem_singleton.mpr rfl
      · rw [Board.revealCellAt_revQ_ne b col row q hidx] at hrev2
        rw [hq.2.2.1] at hrev2
        exact Bool.noConfusion hrev2
  constructor
  · intro p hp
    rw [Board.check_win_revQ]
    exact floodLoop_spec b (col, row) hWF hin ((b.revealCellAt col row).cells.length + 1)
      (b.revealCellAt col row) [(col, row)] hmeas hInv0 p hp
  · intro p
    rw [Board.check_win_flagQ]
    have h1 := (floodLoop_revealOnly ((b.revealCellAt col row).cells.length + 1)
      (b.revealCellAt col row) [(col, row)]).flagQ_eq p
    rw [h1]
    exact hRO1.flagQ_eq p

end Minesweeper

namespace Minesweeper

/-- The 5x5, 0-mine grid of the concrete flood-fill scenario. -/
def demo5 : Board := Board.init 5 5 0

/-- A 4x4 board with a single mine at (3,3) whose mines were placed by a
first click at (0,0). -/
def C4Board : Board := (Board.init 4 4 1).place_mines [(3, 3)] 0 0

set_option maxHeartbeats 4000000 in
/-- C4: revealing an unrevealed, unflagged, zero-adjacency non-mine cell
flood-fills exactly the connected zero-adjacency region reachable from the
click plus the unflagged neighbors of region members (its boundary);
already revealed or flagged cells are never (re-)revealed, flags are left
untouched, and — since the right-hand side of the characterization does
not mention the traversal — the final revealed set is independent of the
visit order.  On a 5x5 grid with 0 mines, one reveal of any cell reveals
all 25 cells and sets `win`. -/
theorem C4_flood_fill_region (b : Board) (sample : List (Int × Int)) (col row : Int)
    (hWF : b.WF) (hpl : b.mines_placed = true) {s : CellState}
    (hs : b.stateAt col row = some s) (hrev : s.is_revealed = false)
    (hflag : s.is_flagged = false) (hmine : s.is_mine = false) (hadj : s.adjacent = 0)
    (hin : b.is_inbounds col row = true) (hgo : b.game_over = false) (hwin : b.win = false) :
    ((∀ p : Int × Int, b.is_inbounds p.1 p.2 = true →
       ((b.reveal sample col row).revQ p = true ↔
         (b.revQ p = true ∨ p = (col, row) ∨
           (b.flagQ p = false ∧ ∃ q, InRegion b (col, row) q ∧ p ∈ b.neighbors q.1 q.2)))) ∧
     (∀ p : Int × Int, (b.reveal sample col row).flagQ p = b.flagQ p)) ∧
    (∀ p ∈ demo5.all_positions,
       (demo5.reveal [] p.1 p.2).win = true ∧
       ∀ q ∈ demo5.all_positions, (demo5.reveal [] p.1 p.2).revQ q = true) :=
  ⟨Board.reveal_flood_char b sample col row hWF hpl hs hrev hflag hmine hadj hin hgo hwin,
   by decide⟩

/-- C4 witness: the characterization applied to the concrete 4x4 board
`C4Board` (one mine at (3,3)), clicking (0,0): the boundary cell (2,2)
ends revealed, and flags are untouched at (3,3). -/
theorem C4_witness :
    ((C4Board.reveal [] 0 0).revQ (2, 2) = true ↔
      (C4Board.revQ (2, 2) = true ∨ ((2 : Int), (2 : Int)) = ((0 : Int), (0 : Int)) ∨
        (C4Board.flagQ (2, 2) = false ∧
         ∃ q, InRegion C4Board (0, 0) q ∧
           ((2 : Int), (2 : Int)) ∈ C4Board.neighbors q.1 q.2))) ∧
    (C4Board.reveal [] 0 0).flagQ (3, 3) = C4Board.flagQ (3, 3) := by
  have h := C4_flood_fill_region C4Board [] 0 0 (by decide) (by decide)
    (show C4Board.stateAt 0 0 = some ⟨false, false, false, 0⟩ by decide)
    (by decide) (by decide) (by decide) (by decide) (by decide) (by decide) (by decide)
  exact ⟨h.1.1 (2, 2) (by decide), h.1.2 (3, 3)⟩

end Minesweeper
